import Mathlib

/-!
Shallow embedding of the codegraph dependency-graph engine.

The definitions below are translated from the TypeScript sources:
entity-id utilities, tsconfig path-alias matching, import-path resolution,
graph building, BFS/DFS traversal, graph queries, graph diffing and
impact analysis.  JavaScript records (insertion-ordered string-keyed
objects) are modelled as association lists, the filesystem-existence
check `fs.existsSync` is an injected boolean oracle, and the build
timestamp is an explicit argument.
-/

/-- `NodeType` from graph.interface.ts. -/
inductive NodeType where
  | file
  | class_
  | method
  | function_
  | interface_
deriving DecidableEq, Repr

/-- `RelationshipType` from graph.interface.ts. -/
inductive RelationshipType where
  | imports
  | extends_
  | implements_
  | calls
deriving DecidableEq, Repr

/-- `Node` from graph.interface.ts: entity metadata. -/
structure GNode where
  type : NodeType
  file : Option String
  line : Option Nat
  endLine : Option Nat
deriving DecidableEq, Repr

/-- `Edge` from graph.interface.ts. -/
structure Edge where
  source : String
  relationship : RelationshipType
  target : String
deriving DecidableEq, Repr

/-- `GraphData` from graph.interface.ts; `nodes` is a JS object modelled as
an insertion-ordered association list. -/
structure GraphData where
  version : String
  commitHash : String
  timestamp : String
  nodes : List (String × GNode)
  edges : List Edge
deriving DecidableEq, Repr

/-- `ParsedMethod` from graph.interface.ts. -/
structure ParsedMethod where
  name : String
  line : Nat
  endLine : Nat
  calls : List String
deriving DecidableEq, Repr

/-- `ParsedClass` from graph.interface.ts. -/
structure ParsedClass where
  name : String
  line : Nat
  endLine : Nat
  methods : List ParsedMethod
  extends_ : Option String
  implements_ : Option (List String)
deriving DecidableEq, Repr

/-- `ParsedFunction` from graph.interface.ts. -/
structure ParsedFunction where
  name : String
  line : Nat
  endLine : Nat
  calls : List String
deriving DecidableEq, Repr

/-- `ParsedImport` from graph.interface.ts. -/
structure ParsedImport where
  from_ : String
  isTypeOnly : Bool
deriving DecidableEq, Repr

/-- `ParsedFile` from graph.interface.ts. -/
structure ParsedFile where
  filePath : String
  classes : List ParsedClass
  functions : List ParsedFunction
  imports : List ParsedImport
deriving DecidableEq, Repr

/-- Lookup in a JS-object-as-association-list (`obj[key]`). -/
def recordLookup {α : Type} (r : List (String × α)) (k : String) : Option α :=
  match r with
  | [] => none
  | (k', v) :: rest => if k' = k then some v else recordLookup rest k

/-- Key-membership test in a JS object (`key in obj` / truthiness of `obj[key]`). -/
def recordContains {α : Type} (r : List (String × α)) (k : String) : Bool :=
  (recordLookup r k).isSome

/-- JS object assignment `obj[key] = v`: update in place if present,
append otherwise (insertion order preserved). -/
def recordSet {α : Type} (r : List (String × α)) (k : String) (v : α) :
    List (String × α) :=
  match r with
  | [] => [(k, v)]
  | (k', v') :: rest =>
    if k' = k then (k', v) :: rest else (k', v') :: recordSet rest k v

/-- Keys of a JS object in insertion order (`Object.keys`). -/
def recordKeys {α : Type} (r : List (String × α)) : List String :=
  r.map Prod.fst

/-! ## entity-id.util.ts -/

/-- `formatFileId` from entity-id.util.ts. -/
def formatFileId (filePath : String) : String := filePath

/-- `formatClassId` from entity-id.util.ts. -/
def formatClassId (filePath className : String) : String :=
  filePath ++ "::" ++ className

/-- `formatMethodId` from entity-id.util.ts. -/
def formatMethodId (filePath className methodName : String) : String :=
  filePath ++ "::" ++ className ++ "::" ++ methodName

/-- `formatFunctionId` from entity-id.util.ts. -/
def formatFunctionId (filePath functionName : String) : String :=
  filePath ++ "::" ++ functionName

/-- `formatInterfaceId` from entity-id.util.ts. -/
def formatInterfaceId (filePath interfaceName : String) : String :=
  filePath ++ "::" ++ interfaceName

/-! ## graph-traversal.util.ts -/

/-- `TraversalDirection` from graph-traversal.util.ts. -/
inductive TraversalDirection where
  | forward
  | reverse
deriving DecidableEq, Repr

/-- `TraversalResult` from graph-traversal.util.ts. -/
structure TraversalResult where
  entityId : String
  depth : Nat
  path : List String
deriving DecidableEq, Repr

/-- `getNeighbors` from graph-traversal.util.ts. -/
def getNeighbors (edges : List Edge) (entityId : String)
    (direction : TraversalDirection) : List String :=
  match direction with
  | .forward => (edges.filter (fun e => e.source = entityId)).map (fun e => e.target)
  | .reverse => (edges.filter (fun e => e.target = entityId)).map (fun e => e.source)

/-- A queue item of `traverseBFS`: entity id, depth, and path. -/
structure QItem where
  entityId : String
  depth : Nat
  path : List String
deriving DecidableEq, Repr

/-- The `while (queue.length > 0)` loop of `traverseBFS`, with an explicit
fuel (the loop's own termination is established separately, in
`bfsAux_fuel_congr`).  Returns the final visited set together with the
emitted results. -/
def bfsAux (edges : List Edge) (dir : TraversalDirection) (start : String)
    (transitive : Bool) :
    Nat → List String → List QItem → (List String × List TraversalResult)
  | _, visited, [] => (visited, [])
  | 0, visited, _ :: _ => (visited, [])
  | fuel + 1, visited, cur :: rest =>
    if visited.contains cur.entityId then
      bfsAux edges dir start transitive fuel visited rest
    else
      let visited1 := cur.entityId :: visited
      let emit : List TraversalResult :=
        if cur.entityId = start then []
        else [⟨cur.entityId, cur.depth, cur.path⟩]
      if transitive = false ∧ 0 < cur.depth then
        let out := bfsAux edges dir start transitive fuel visited1 rest
        (out.1, emit ++ out.2)
      else
        let neighbors := getNeighbors edges cur.entityId dir
        let pushes := (neighbors.filter (fun n => ! visited1.contains n)).map
          (fun n => (⟨n, cur.depth + 1, cur.path ++ [n]⟩ : QItem))
        let out := bfsAux edges dir start transitive fuel visited1 (rest ++ pushes)
        (out.1, emit ++ out.2)

/-- All entity ids that can ever appear in a traversal from `start`:
the start id plus every edge endpoint. -/
def idList (edges : List Edge) (start : String) : List String :=
  start :: edges.flatMap (fun e => [e.source, e.target])

/-- A fuel bound sufficient for `bfsAux` to drain its queue. -/
def bfsFuel (edges : List Edge) (start : String) : Nat :=
  (idList edges start).dedup.length * (edges.length + 1) + 1

/-- `traverseBFS` with the fuel exposed. -/
def traverseBFSFuel (graph : GraphData) (startEntityId : String)
    (direction : TraversalDirection) (transitive : Bool) (fuel : Nat) :
    Option (List TraversalResult) :=
  if recordContains graph.nodes startEntityId then
    some (bfsAux graph.edges direction startEntityId transitive fuel []
      [⟨startEntityId, 0, [startEntityId]⟩]).2
  else
    none

/-- `traverseBFS` from graph-traversal.util.ts.  The `throw` on a missing
start entity is modelled as `none`. -/
def traverseBFS (graph : GraphData) (startEntityId : String)
    (direction : TraversalDirection) (transitive : Bool) :
    Option (List TraversalResult) :=
  traverseBFSFuel graph startEntityId direction transitive
    (bfsFuel graph.edges startEntityId)

/-- The recursive `dfs` closure of `traverseDFS`, with explicit fuel
(recursion depth is bounded by the visited set; see `dfsFuel`).
Threads the visited set and returns it with the emitted results. -/
def dfsAux (edges : List Edge) (dir : TraversalDirection) (start : String)
    (transitive : Bool) :
    Nat → List String → String → Nat → List String →
    (List String × List TraversalResult)
  | 0, visited, _, _, _ => (visited, [])
  | fuel + 1, visited, entityId, depth, path =>
    if visited.contains entityId then (visited, [])
    else
      let visited1 := entityId :: visited
      let emit : List TraversalResult :=
        if entityId = start then [] else [⟨entityId, depth, path⟩]
      if transitive = false ∧ 0 < depth then (visited1, emit)
      else
        let neighbors := getNeighbors edges entityId dir
        neighbors.foldl
          (fun acc n =>
            if acc.1.contains n then acc
            else
              let out := dfsAux edges dir start transitive fuel acc.1 n
                (depth + 1) (path ++ [n])
              (out.1, acc.2 ++ out.2))
          (visited1, emit)

/-- A fuel bound sufficient for `dfsAux`: each nested call visits a fresh id. -/
def dfsFuel (edges : List Edge) (start : String) : Nat :=
  (idList edges start).dedup.length + 1

/-- `traverseDFS` from graph-traversal.util.ts.  The `throw` on a missing
start entity is modelled as `none`. -/
def traverseDFS (graph : GraphData) (startEntityId : String)
    (direction : TraversalDirection) (transitive : Bool) :
    Option (List TraversalResult) :=
  if recordContains graph.nodes startEntityId then
    some (dfsAux graph.edges direction startEntityId transitive
      (dfsFuel graph.edges startEntityId) [] startEntityId 0 [startEntityId]).2
  else
    none

/-! ## A model of the JavaScript string methods used by the sources
(`startsWith`, `endsWith`, `includes`, `slice`, `split`, `replace`,
`length`), implemented structurally over the character list of a string
so that every definition evaluates inside the kernel. -/

/-- JS `String.prototype.startsWith`. -/
def strStartsWith (s pre : String) : Bool := pre.data.isPrefixOf s.data

/-- JS `String.prototype.endsWith`. -/
def strEndsWith (s suf : String) : Bool := suf.data.isSuffixOf s.data

/-- JS `String.prototype.includes` for a single character. -/
def strContains (s : String) (c : Char) : Bool := s.data.contains c

/-- JS `String.prototype.slice (n)`. -/
def strDrop (s : String) (n : Nat) : String := ⟨s.data.drop n⟩

/-- JS `String.prototype.slice (0, -n)` for `0 < n`. -/
def strDropRight (s : String) (n : Nat) : String :=
  ⟨s.data.take (s.data.length - n)⟩

/-- JS `String.prototype.length` (code-unit count; code points here). -/
def strLength (s : String) : Nat := s.data.length

/-- `Array.prototype.join (sep)`. -/
def strIntercalate (sep : String) : List String → String
  | [] => ""
  | [s] => s
  | s :: rest => s ++ sep ++ strIntercalate sep rest

/-- Character-by-character mapping of a string. -/
def strMap (f : Char → Char) (s : String) : String := ⟨s.data.map f⟩

/-- Split a character list on a separator character. -/
def charSplit (sep : Char) : List Char → List (List Char)
  | [] => [[]]
  | c :: rest =>
    match charSplit sep rest with
    | [] => if c = sep then [[], []] else [[c]]
    | h :: t => if c = sep then [] :: h :: t else (c :: h) :: t

/-- JS `String.prototype.split` with a single-character separator. -/
def splitOnChar (s : String) (sep : Char) : List String :=
  (charSplit sep s.data).map (fun l => ⟨l⟩)

/-- Replace the first occurrence of `pat` (as a character list); `none`
when `pat` does not occur. -/
def replaceFirstAux (pat repl : List Char) : List Char → Option (List Char)
  | [] => none
  | c :: rest =>
    if pat.isPrefixOf (c :: rest) then
      some (repl ++ (c :: rest).drop pat.length)
    else
      (replaceFirstAux pat repl rest).map (fun l => c :: l)

/-! ## A model of Node's `path` module (POSIX flavour), as used by the
utilities below via `path.join`, `path.dirname` and `path.relative`. -/

/-- Normalize a list of path segments: drop empty and `.` segments and
resolve `..` against the preceding segment (POSIX normalization). -/
def normSegs (absolute : Bool) (segs : List String) : List String :=
  (segs.foldl
    (fun stack seg =>
      if seg = "" ∨ seg = "." then stack
      else if seg = ".." then
        match stack with
        | [] => if absolute then [] else [".."]
        | top :: rest => if top = ".." then seg :: stack else rest
      else seg :: stack)
    []).reverse

/-- Model of `path.join`: concatenate the parts with `/` and normalize. -/
def posixJoin (parts : List String) : String :=
  let joined := strIntercalate "/" (parts.filter (fun p => p ≠ ""))
  let absolute := strStartsWith joined "/"
  let body := strIntercalate "/" (normSegs absolute (splitOnChar joined '/'))
  if absolute then (if body = "" then "/" else "/" ++ body)
  else (if body = "" then "." else body)

/-- Model of `path.dirname`: everything before the last `/`. -/
def posixDirname (p : String) : String :=
  let parts := splitOnChar p '/'
  if parts.length ≤ 1 then "."
  else
    let init := parts.dropLast
    if init.all (fun s => s = "") then "/"
    else strIntercalate "/" init

/-- Model of `path.relative`: drop the common segment prefix, then climb
with `..` for what remains of `from` and descend into `to`. -/
def relSegs : List String → List String → List String
  | f :: fs, t :: ts => if f = t then relSegs fs ts else
      (List.replicate (f :: fs).length "..") ++ (t :: ts)
  | [], ts => ts
  | fs, [] => List.replicate fs.length ".."

/-- Model of `path.relative (from, to)` for already-resolved paths. -/
def posixRelative (fromP toP : String) : String :=
  let f := normSegs true (splitOnChar fromP '/')
  let t := normSegs true (splitOnChar toP '/')
  strIntercalate "/" (relSegs f t)

/-! ## path.util.ts -/

/-- `normalizePath` from path.util.ts: make `absolutePath` relative to
`projectRoot` and convert backslashes to forward slashes. -/
def normalizePath (absolutePath projectRoot : String) : String :=
  strMap (fun c => if c = '\\' then '/' else c)
    (posixRelative projectRoot absolutePath)

/-! ## tsconfig.util.ts -/

/-- `TsConfigPaths` from tsconfig.util.ts.  `paths` is a JS object
modelled as an insertion-ordered association list. -/
structure TsConfigPaths where
  baseUrl : Option String
  paths : List (String × List String)
deriving DecidableEq, Repr

/-- Replace the first occurrence of `pat` in `s` by `m`
(JS `String.prototype.replace` with a string pattern). -/
def replaceFirst (s pat m : String) : String :=
  match replaceFirstAux pat.data m.data s.data with
  | some l => ⟨l⟩
  | none => s

/-- Specificity of a pattern: its length with wildcard characters removed
(`a.replace(/\*/g, '').length` in tsconfig.util.ts). -/
def patternSpecificity (p : String) : Nat :=
  (p.data.filter (fun c => c ≠ '*')).length

/-- `matchPattern` from tsconfig.util.ts. -/
def matchPattern (importPath pattern : String) : Option String :=
  if ¬ strContains pattern '*' then
    if importPath = pattern then some "" else none
  else
    let parts := splitOnChar pattern '*'
    let pre := parts.headD ""
    let suf := (parts.drop 1).headD ""
    if strStartsWith importPath pre ∧ strEndsWith importPath suf then
      some (strDropRight (strDrop importPath (strLength pre)) (strLength suf))
    else
      none

/-- Insert an element into a sorted list, before the first element it
may precede (keeps insertion stable for ties). -/
def insertSorted {α : Type} (le : α → α → Bool) (x : α) :
    List α → List α
  | [] => [x]
  | y :: ys => if le x y then x :: y :: ys else y :: insertSorted le x ys

/-- Model of JS `Array.prototype.sort` with a comparator: a stable sort. -/
def sortBy {α : Type} (le : α → α → Bool) : List α → List α
  | [] => []
  | x :: xs => insertSorted le x (sortBy le xs)

/-- The `for (const pattern of sortedPatterns)` loop of `matchPathAlias`:
the first matching pattern contributes all its mapped paths and the loop
breaks; later patterns are never consulted. -/
def aliasLoop (importPath : String) (paths : List (String × List String))
    (basePath : String) : List String → List String
  | [] => []
  | pattern :: rest =>
    match matchPattern importPath pattern with
    | some m =>
      ((recordLookup paths pattern).getD []).map
        (fun mappedPath => posixJoin [basePath, replaceFirst mappedPath "*" m])
    | none => aliasLoop importPath paths basePath rest

/-- `matchPathAlias` from tsconfig.util.ts. -/
def matchPathAlias (importPath : String) (config : TsConfigPaths)
    (projectRoot : String) : List String :=
  if strStartsWith importPath "." then []
  else if config.paths.isEmpty then []
  else
    let sortedPatterns := sortBy
      (fun a b => decide (patternSpecificity b ≤ patternSpecificity a))
      (config.paths.map Prod.fst)
    let basePath :=
      match config.baseUrl with
      | some b => posixJoin [projectRoot, b]
      | none => projectRoot
    aliasLoop importPath config.paths basePath sortedPatterns

/-- `tryResolveCandidates` from path.util.ts, with the
`fs.existsSync` check injected as the oracle `fsExists`. -/
def tryResolveCandidates (fsExists : String → Bool) (basePaths : List String)
    (projectRoot : String) : Option String :=
  match basePaths with
  | [] => none
  | basePath :: rest =>
    let candidates := [basePath ++ ".ts", basePath ++ ".tsx",
      basePath ++ "/index.ts", basePath ++ "/index.tsx", basePath]
    match candidates.find? fsExists with
    | some c => some (normalizePath c projectRoot)
    | none => tryResolveCandidates fsExists rest projectRoot

/-- `resolveImportPath` from path.util.ts. -/
def resolveImportPath (fsExists : String → Bool)
    (importFrom fromFile projectRoot : String)
    (tsConfig : Option TsConfigPaths) : Option String :=
  if strStartsWith importFrom "." then
    let fromDir := posixDirname fromFile
    let basePath := posixJoin [projectRoot, fromDir, importFrom]
    tryResolveCandidates fsExists [basePath] projectRoot
  else
    match tsConfig with
    | some cfg =>
      let aliasCandidates := matchPathAlias importFrom cfg projectRoot
      if aliasCandidates.length > 0 then
        tryResolveCandidates fsExists aliasCandidates projectRoot
      else none
    | none => none

/-! ## graph-builder.service.ts -/

/-- `GraphBuilderService.resolveClassName`: always unresolved. -/
def resolveClassName (_className _currentFile : String) : Option String :=
  none

/-- `GraphBuilderService.resolveInterfaceName`: always unresolved. -/
def resolveInterfaceName (_interfaceName _currentFile : String) :
    Option String :=
  none

/-- `GraphBuilderService.resolveCallTarget`. -/
def resolveCallTarget (call currentFile : String)
    (currentClass : Option String) : Option String :=
  match currentClass with
  | some cls =>
    if strStartsWith call "this." then
      some (formatMethodId currentFile cls (replaceFirst call "this." ""))
    else if ¬ strContains call '.' then
      some (formatFunctionId currentFile call)
    else none
  | none =>
    if ¬ strContains call '.' then some (formatFunctionId currentFile call)
    else none

/-- `GraphBuilderService.addFileNodes`: the node pass for one parsed file. -/
def addFileNodes (parsedFile : ParsedFile) (nodes : List (String × GNode)) :
    List (String × GNode) :=
  let r1 := recordSet nodes (formatFileId parsedFile.filePath)
    ⟨.file, none, none, none⟩
  let r2 := parsedFile.classes.foldl
    (fun acc classDecl =>
      let acc1 := recordSet acc (formatClassId parsedFile.filePath classDecl.name)
        ⟨.class_, some parsedFile.filePath, some classDecl.line,
          some classDecl.endLine⟩
      classDecl.methods.foldl
        (fun acc2 m =>
          recordSet acc2
            (formatMethodId parsedFile.filePath classDecl.name m.name)
            ⟨.method, some parsedFile.filePath, some m.line, some m.endLine⟩)
        acc1)
    r1
  parsedFile.functions.foldl
    (fun acc fn =>
      recordSet acc (formatFunctionId parsedFile.filePath fn.name)
        ⟨.function_, some parsedFile.filePath, some fn.line, some fn.endLine⟩)
    r2

/-- The import-edge portion of `GraphBuilderService.addFileEdges`: type-only
imports are skipped, and a resolved import produces an edge only when the
target node exists (otherwise the occurrence is only reported). -/
def importEdges (fsExists : String → Bool) (parsedFile : ParsedFile)
    (projectRoot : String) (nodes : List (String × GNode)) : List Edge :=
  let fileId := formatFileId parsedFile.filePath
  parsedFile.imports.flatMap
    (fun imp =>
      if imp.isTypeOnly then []
      else
        match resolveImportPath fsExists imp.from_ parsedFile.filePath
          projectRoot none with
        | some targetPath =>
          let targetId := formatFileId targetPath
          if recordContains nodes targetId then
            [⟨fileId, .imports, targetId⟩]
          else []
        | none => [])

/-- The class portion of `GraphBuilderService.addFileEdges`: extends /
implements edges (whose name resolution always fails) and method-call
edges. -/
def classEdges (parsedFile : ParsedFile) : List Edge :=
  parsedFile.classes.flatMap
    (fun classDecl =>
      let classId := formatClassId parsedFile.filePath classDecl.name
      (match classDecl.extends_ with
       | some ext =>
         match resolveClassName ext parsedFile.filePath with
         | some extendsClassId => [⟨classId, .extends_, extendsClassId⟩]
         | none => []
       | none => []) ++
      (match classDecl.implements_ with
       | some impls =>
         impls.flatMap (fun impl =>
           match resolveInterfaceName impl parsedFile.filePath with
           | some interfaceId => [⟨classId, .implements_, interfaceId⟩]
           | none => [])
       | none => []) ++
      classDecl.methods.flatMap
        (fun m =>
          let methodId :=
            formatMethodId parsedFile.filePath classDecl.name m.name
          m.calls.flatMap (fun call =>
            match resolveCallTarget call parsedFile.filePath
              (some classDecl.name) with
            | some targetId => [⟨methodId, .calls, targetId⟩]
            | none => [])))

/-- The function-call portion of `GraphBuilderService.addFileEdges`. -/
def functionEdges (parsedFile : ParsedFile) : List Edge :=
  parsedFile.functions.flatMap
    (fun fn =>
      let functionId := formatFunctionId parsedFile.filePath fn.name
      fn.calls.flatMap (fun call =>
        match resolveCallTarget call parsedFile.filePath none with
        | some targetId => [⟨functionId, .calls, targetId⟩]
        | none => []))

/-- `GraphBuilderService.addFileEdges`: the edge pass for one parsed file
(appending to the accumulated edge list). -/
def addFileEdges (fsExists : String → Bool) (parsedFile : ParsedFile)
    (edges : List Edge) (projectRoot : String)
    (nodes : List (String × GNode)) : List Edge :=
  edges ++ importEdges fsExists parsedFile projectRoot nodes ++
    classEdges parsedFile ++ functionEdges parsedFile

/-- `GraphBuilderService.buildGraph`: node pass over all files, then edge
pass over all files against the completed node set.  The generation
timestamp (`new Date().toISOString()`) is an explicit argument; the
skipped-edge console warning is a side effect with no influence on the
returned graph. -/
def buildGraph (fsExists : String → Bool) (parsedFiles : List ParsedFile)
    (commitHash projectRoot timestamp : String) : GraphData :=
  let nodes := parsedFiles.foldl (fun acc pf => addFileNodes pf acc) []
  let edges := parsedFiles.foldl
    (fun acc pf => addFileEdges fsExists pf acc projectRoot nodes) []
  ⟨"1.0.0", commitHash, timestamp, nodes, edges⟩

/-! ## graph-query.service.ts -/

/-- `EntityWithMetadata` from query.interface.ts. -/
structure EntityWithMetadata where
  entityId : String
  node : GNode
  depth : Nat
  path : List String
  relationship : Option RelationshipType
deriving DecidableEq, Repr

/-- `GraphQueryService.getRelationship`: linear scan for a direct edge
between the two entities. -/
def getRelationship (graph : GraphData) (sourceId targetId : String) :
    Option RelationshipType :=
  (graph.edges.find?
    (fun e => e.source == sourceId && e.target == targetId)).map
    (fun e => e.relationship)

/-- Enrich raw traversal results as `GraphQueryService.getDependencies` /
`getDependents` do: drop results whose entity has no node, then attach
the node and the direct-edge relationship label. -/
def enrichResults (graph : GraphData) (results : List TraversalResult)
    (relOf : String → Option RelationshipType) : List EntityWithMetadata :=
  (results.filter (fun r => recordContains graph.nodes r.entityId)).map
    (fun r =>
      { entityId := r.entityId,
        node := (recordLookup graph.nodes r.entityId).getD
          ⟨.file, none, none, none⟩,
        depth := r.depth,
        path := r.path,
        relationship := relOf r.entityId })

/-- `GraphQueryService.getDependencies`.  Propagates the
entity-not-found failure of `traverseBFS` as `none`. -/
def getDependencies (graph : GraphData) (entityId : String)
    (transitive : Bool) : Option (List EntityWithMetadata) :=
  (traverseBFS graph entityId .forward transitive).map
    (fun results => enrichResults graph results
      (fun resultId => getRelationship graph entityId resultId))

/-- `GraphQueryService.getDependents`.  Propagates the
entity-not-found failure of `traverseBFS` as `none`. -/
def getDependents (graph : GraphData) (entityId : String)
    (transitive : Bool) : Option (List EntityWithMetadata) :=
  (traverseBFS graph entityId .reverse transitive).map
    (fun results => enrichResults graph results
      (fun resultId => getRelationship graph resultId entityId))

/-- `GraphQueryService.findEntitiesByFile`: entities whose id is the file
path or whose `file` field matches it, in node-map order. -/
def findEntitiesByFile (graph : GraphData) (filePath : String) :
    List String :=
  (graph.nodes.filter
    (fun kv => kv.1 == filePath || kv.2.file == some filePath)).map
    Prod.fst

/-! ## impact-analysis.service.ts -/

/-- `RiskLevel` from impact.interface.ts. -/
inductive RiskLevel where
  | LOW
  | MEDIUM
  | HIGH
  | CRITICAL
deriving DecidableEq, Repr

/-- The `affectedByType` histogram (`Record<NodeType, number>`). -/
structure AffectedByType where
  file : Nat
  class_ : Nat
  method : Nat
  function_ : Nat
  interface_ : Nat
deriving DecidableEq, Repr

/-- Increment the histogram counter of one node type
(`affectedByType[dependent.node.type]++`). -/
def bumpType (t : NodeType) (a : AffectedByType) : AffectedByType :=
  match t with
  | .file => { a with file := a.file + 1 }
  | .class_ => { a with class_ := a.class_ + 1 }
  | .method => { a with method := a.method + 1 }
  | .function_ => { a with function_ := a.function_ + 1 }
  | .interface_ => { a with interface_ := a.interface_ + 1 }

/-- `ImpactMetrics` from impact.interface.ts. -/
structure ImpactMetrics where
  changedFilesCount : Nat
  affectedEntitiesCount : Nat
  affectedFilesCount : Nat
  affectedByType : AffectedByType
  maxDepth : Nat
deriving DecidableEq, Repr

/-- `AffectedEntity` from impact.interface.ts. -/
structure AffectedEntity where
  entityId : String
  node : GNode
  reason : String
  depth : Nat
  changedBy : String
deriving DecidableEq, Repr

/-- `ImpactReport` from impact.interface.ts. -/
structure ImpactReport where
  changedFiles : List String
  affectedEntities : List AffectedEntity
  metrics : ImpactMetrics
  riskLevel : RiskLevel
deriving DecidableEq, Repr

/-- `ImpactAnalysisService.calculateRiskLevel`. -/
def calculateRiskLevel (metrics : ImpactMetrics) : RiskLevel :=
  let fileScore := metrics.affectedFilesCount * 10
  let entityScore := metrics.affectedEntitiesCount * 2
  let depthScore := metrics.maxDepth * 5
  let totalScore := fileScore + entityScore + depthScore
  if totalScore < 20 then .LOW
  else if totalScore < 50 then .MEDIUM
  else if totalScore < 100 then .HIGH
  else .CRITICAL

/-- `ImpactAnalysisService.createEmptyReport`. -/
def createEmptyReport : ImpactReport :=
  ⟨[], [], ⟨0, 0, 0, ⟨0, 0, 0, 0, 0⟩, 0⟩, .LOW⟩

/-- The mutable accumulators of `analyzeImpact`'s loops: the affected
entity list, the affected-file insertion-ordered set, the per-type
histogram and the running maximum depth. -/
structure ImpactState where
  affectedEntities : List AffectedEntity
  affectedFiles : List String
  affectedByType : AffectedByType
  maxDepth : Nat
deriving DecidableEq, Repr

/-- `Set.prototype.add` on an insertion-ordered set of strings. -/
def addToSet (l : List String) (s : String) : List String :=
  if l.contains s then l else l ++ [s]

/-- Body of `analyzeImpact`'s innermost loop: record one dependent. -/
def recordDependent (changedFile entityId : String)
    (dependent : EntityWithMetadata) (st : ImpactState) : ImpactState :=
  let entry : AffectedEntity :=
    ⟨dependent.entityId, dependent.node,
      "Depends on " ++ entityId ++ " in " ++ changedFile,
      dependent.depth, changedFile⟩
  let st1 := { st with affectedEntities := st.affectedEntities ++ [entry] }
  let st2 :=
    match dependent.node.file with
    | some f => { st1 with affectedFiles := addToSet st1.affectedFiles f }
    | none => st1
  let st3 :=
    { st2 with affectedByType := bumpType dependent.node.type st2.affectedByType }
  if st3.maxDepth < dependent.depth then
    { st3 with maxDepth := dependent.depth }
  else st3

/-- `ImpactAnalysisService.analyzeImpact`.  The inner `getDependents` call
always succeeds because its argument is a node-map key; its failure case
is defaulted to the empty list. -/
def analyzeImpact (graph : GraphData) (changedFiles : List String) :
    ImpactReport :=
  if changedFiles.isEmpty then createEmptyReport
  else
    let st := changedFiles.foldl
      (fun st changedFile =>
        let entitiesInFile := findEntitiesByFile graph changedFile
        entitiesInFile.foldl
          (fun st entityId =>
            let dependents := (getDependents graph entityId true).getD []
            dependents.foldl
              (fun st dependent => recordDependent changedFile entityId
                dependent st)
              st)
          st)
      ⟨[], [], ⟨0, 0, 0, 0, 0⟩, 0⟩
    let metrics : ImpactMetrics :=
      ⟨changedFiles.length, st.affectedEntities.length,
        st.affectedFiles.length, st.affectedByType, st.maxDepth⟩
    ⟨changedFiles, st.affectedEntities, metrics, calculateRiskLevel metrics⟩

/-- `ImpactAnalysisService.filterByThreshold`: all-or-nothing filter on
the ordinal risk level. -/
def riskOrdinal : RiskLevel → Nat
  | .LOW => 1
  | .MEDIUM => 2
  | .HIGH => 3
  | .CRITICAL => 4

/-- `ImpactAnalysisService.filterByThreshold`. -/
def filterByThreshold (report : ImpactReport) (threshold : RiskLevel) :
    ImpactReport :=
  if riskOrdinal report.riskLevel < riskOrdinal threshold then
    createEmptyReport
  else report

/-! ## graph-diff.service.ts -/

/-- `NodeChange` from diff.interface.ts. -/
inductive NodeChange where
  | line
  | endLine
  | type
  | file
deriving DecidableEq, Repr

/-- `ModifiedNode` from diff.interface.ts. -/
structure ModifiedNode where
  entityId : String
  before : GNode
  after : GNode
  changes : List NodeChange
deriving DecidableEq, Repr

/-- `DiffSummary` from diff.interface.ts. -/
structure DiffSummary where
  totalNodesAdded : Nat
  totalNodesRemoved : Nat
  totalNodesModified : Nat
  totalEdgesAdded : Nat
  totalEdgesRemoved : Nat
deriving DecidableEq, Repr

/-- `GraphDiff` from diff.interface.ts. -/
structure GraphDiff where
  commit1 : String
  commit2 : String
  addedNodes : List String
  removedNodes : List String
  modifiedNodes : List ModifiedNode
  addedEdges : List Edge
  removedEdges : List Edge
  summary : DiffSummary
deriving DecidableEq, Repr

/-- The serialized form of a relationship value. -/
def relationshipString : RelationshipType → String
  | .imports => "imports"
  | .extends_ => "extends"
  | .implements_ => "implements"
  | .calls => "calls"

/-- `GraphDiffService.edgeToString`. -/
def edgeToString (edge : Edge) : String :=
  edge.source ++ "::" ++ relationshipString edge.relationship ++ "::" ++
    edge.target

/-- `GraphDiffService.compareEdges`: string-keyed set membership, filters
over the raw edge arrays. -/
def compareEdges (edges1 edges2 : List Edge) : List Edge × List Edge :=
  let edges1Set := edges1.map edgeToString
  let edges2Set := edges2.map edgeToString
  let addedEdges := edges2.filter
    (fun edge => ¬ edges1Set.contains (edgeToString edge))
  let removedEdges := edges1.filter
    (fun edge => ¬ edges2Set.contains (edgeToString edge))
  (addedEdges, removedEdges)

/-- `GraphDiffService.detectNodeChanges`. -/
def detectNodeChanges (node1 node2 : GNode) : List NodeChange :=
  (if node1.line ≠ node2.line then [NodeChange.line] else []) ++
  (if node1.endLine ≠ node2.endLine then [NodeChange.endLine] else []) ++
  (if node1.type ≠ node2.type then [NodeChange.type] else []) ++
  (if node1.file ≠ node2.file then [NodeChange.file] else [])

/-- `GraphDiffService.findModifiedNodes`. -/
def findModifiedNodes (graph1 graph2 : GraphData)
    (commonNodes : List String) : List ModifiedNode :=
  commonNodes.flatMap
    (fun nodeId =>
      match recordLookup graph1.nodes nodeId,
        recordLookup graph2.nodes nodeId with
      | some node1, some node2 =>
        let changes := detectNodeChanges node1 node2
        if changes.isEmpty then [] else [⟨nodeId, node1, node2, changes⟩]
      | _, _ => [])

/-- `GraphDiffService.compareGraphs`. -/
def compareGraphs (graph1 graph2 : GraphData) : GraphDiff :=
  let nodes1 := recordKeys graph1.nodes
  let nodes2 := recordKeys graph2.nodes
  let addedNodes := nodes2.filter (fun n => ¬ nodes1.contains n)
  let removedNodes := nodes1.filter (fun n => ¬ nodes2.contains n)
  let commonNodes := nodes1.filter (fun n => nodes2.contains n)
  let modifiedNodes := findModifiedNodes graph1 graph2 commonNodes
  let compared := compareEdges graph1.edges graph2.edges
  let summary : DiffSummary :=
    ⟨addedNodes.length, removedNodes.length, modifiedNodes.length,
      compared.1.length, compared.2.length⟩
  ⟨graph1.commitHash, graph2.commitHash, addedNodes, removedNodes,
    modifiedNodes, compared.1, compared.2, summary⟩

/-- `GraphDiffService.areGraphsIdentical`. -/
def areGraphsIdentical (graph1 graph2 : GraphData) : Bool :=
  let diff := compareGraphs graph1 graph2
  diff.summary.totalNodesAdded == 0 &&
  diff.summary.totalNodesRemoved == 0 &&
  diff.summary.totalNodesModified == 0 &&
  diff.summary.totalEdgesAdded == 0 &&
  diff.summary.totalEdgesRemoved == 0

/-! ## Definitions used by the verification below -/

/-- Entity ids of a queue. -/
def qIds (queue : List QItem) : List String := queue.map QItem.entityId

/-- Entity ids of a result list. -/
def resIds (results : List TraversalResult) : List String :=
  results.map TraversalResult.entityId

/-- Number of candidate traversal ids not yet visited. -/
def unvisitedCount (edges : List Edge) (start : String)
    (visited : List String) : Nat :=
  (((idList edges start).dedup).filter (fun i => ! visited.contains i)).length

/-- Termination measure of the BFS loop: every step strictly decreases it. -/
def bfsMeasure (edges : List Edge) (start : String) (visited : List String)
    (queue : List QItem) : Nat :=
  unvisitedCount edges start visited * (edges.length + 1) + queue.length

/-- Reachability along `getNeighbors` steps (reflexive-transitive). -/
inductive Reach (edges : List Edge) (dir : TraversalDirection) :
    String → String → Prop
  | refl (a : String) : Reach edges dir a a
  | step {a b c : String} : Reach edges dir a b →
      c ∈ getNeighbors edges b dir → Reach edges dir a c

/-- Postcondition of one `bfsAux` run started at state `(visited, queue)`:
visited only grows, new visits are reachable from the queue, the final
visited set is neighbor-closed, queued ids get visited, and results are
exactly the newly visited non-start ids, without duplicates. -/
def BfsOut (edges : List Edge) (dir : TraversalDirection) (start : String)
    (visited : List String) (queue : List QItem)
    (out : List String × List TraversalResult) : Prop :=
  (∀ x ∈ visited, x ∈ out.1) ∧
  (∀ x ∈ out.1, x ∈ visited ∨ ∃ it ∈ queue, Reach edges dir it.entityId x) ∧
  (∀ a ∈ out.1, ∀ n ∈ getNeighbors edges a dir, n ∈ out.1) ∧
  (∀ it ∈ queue, it.entityId ∈ out.1) ∧
  (∀ x, x ∈ resIds out.2 ↔ (x ∈ out.1 ∧ x ∉ visited ∧ x ≠ start)) ∧
  (resIds out.2).Nodup

/-- Postcondition of one `dfsAux` run on `entity` with visited set
`visited`: visited only grows, new visits are reachable from `entity`,
every newly visited node is neighbor-closed in the result, `entity` is
visited, and results are exactly the newly visited non-start ids,
without duplicates. -/
def DfsOut (edges : List Edge) (dir : TraversalDirection) (start : String)
    (visited : List String) (entity : String)
    (out : List String × List TraversalResult) : Prop :=
  (∀ x ∈ visited, x ∈ out.1) ∧
  (∀ x ∈ out.1, x ∈ visited ∨ Reach edges dir entity x) ∧
  (∀ a ∈ out.1, a ∉ visited → ∀ n ∈ getNeighbors edges a dir, n ∈ out.1) ∧
  (entity ∈ out.1) ∧
  (∀ x, x ∈ resIds out.2 ↔ (x ∈ out.1 ∧ x ∉ visited ∧ x ≠ start)) ∧
  (resIds out.2).Nodup

/-- The node entry generated for one method. -/
def methodEntry (filePath className : String) (m : ParsedMethod) :
    String × GNode :=
  (formatMethodId filePath className m.name,
    ⟨.method, some filePath, some m.line, some m.endLine⟩)

/-- The node entries generated for one class: the class itself, then its
methods. -/
def classEntries (filePath : String) (c : ParsedClass) :
    List (String × GNode) :=
  (formatClassId filePath c.name,
    ⟨.class_, some filePath, some c.line, some c.endLine⟩) ::
    c.methods.map (methodEntry filePath c.name)

/-- The node entry generated for one function. -/
def functionEntry (filePath : String) (fn : ParsedFunction) :
    String × GNode :=
  (formatFunctionId filePath fn.name,
    ⟨.function_, some filePath, some fn.line, some fn.endLine⟩)

/-- The node entries generated for one parsed file, in generation order. -/
def entriesOfFile (pf : ParsedFile) : List (String × GNode) :=
  (formatFileId pf.filePath, (⟨.file, none, none, none⟩ : GNode)) ::
    (pf.classes.flatMap (classEntries pf.filePath) ++
      pf.functions.map (functionEntry pf.filePath))

/-- All node entries generated by the node pass, in generation order. -/
def allEntries (parsedFiles : List ParsedFile) : List (String × GNode) :=
  parsedFiles.flatMap entriesOfFile

/-! ### Concrete inputs used by example scenarios and witnesses -/

/-- A file node with no metadata. -/
def fileNode : GNode := ⟨.file, none, none, none⟩

/-- The cyclic example graph A→B→C→A. -/
def exCycle : GraphData :=
  ⟨"1.0.0", "c", "t",
    [("A", fileNode), ("B", fileNode), ("C", fileNode)],
    [⟨"A", .imports, "B"⟩, ⟨"B", .imports, "C"⟩, ⟨"C", .imports, "A"⟩]⟩

/-- A graph with parallel edges, a self-loop, and a dangling edge target. -/
def exMulti : GraphData :=
  ⟨"1.0.0", "c", "t",
    [("A", fileNode), ("B", fileNode)],
    [⟨"A", .imports, "B"⟩, ⟨"A", .calls, "B"⟩, ⟨"A", .imports, "A"⟩,
      ⟨"A", .imports, "X"⟩]⟩

/-- A parsed file whose function `f` calls an undeclared function `g`. -/
def exCallFile : ParsedFile := ⟨"a.ts", [], [⟨"f", 1, 2, ["g"]⟩], []⟩

/-- Oracle for the relative-import probe-order scenario: both the bare
path and the `.ts` candidate exist. -/
def exBareOracle : String → Bool :=
  fun s => s == "/root/a/utils" || s == "/root/a/utils.ts"

/-- Alias configuration with a specific pattern and a catch-all. -/
def exApiConfig : TsConfigPaths :=
  ⟨none, [("@api/*", ["core/api/*"]), ("@/*", ["./*"])]⟩

/-- Alias configuration with a `baseUrl` and two replacement templates. -/
def exServicesConfig : TsConfigPaths :=
  ⟨some "./src", [("@services/*", ["services/*", "shared/services/*"])]⟩

/-- Oracle for the template-order scenario: only the second template's
`.ts` candidate exists on disk. -/
def exServicesOracle : String → Bool :=
  fun s => s == "/proj/src/shared/services/auth.ts"

/-- An empty graph. -/
def exEmpty : GraphData := ⟨"1.0.0", "c", "t", [], []⟩

/-- A graph whose edge list holds the same triple twice. -/
def exDupEdges : GraphData :=
  ⟨"1.0.0", "c", "t", [("a", fileNode), ("b", fileNode)],
    [⟨"a", .imports, "b"⟩, ⟨"a", .imports, "b"⟩]⟩

/-- The same graph with the duplicate triple stored once. -/
def exSingleEdge : GraphData :=
  ⟨"1.0.0", "c", "t", [("a", fileNode), ("b", fileNode)],
    [⟨"a", .imports, "b"⟩]⟩

/-- A parsed file with a class, a method and a function. -/
def exNodeFile : ParsedFile :=
  ⟨"u.ts", [⟨"C", 1, 10, [⟨"m", 2, 4, []⟩], none, none⟩],
    [⟨"h", 12, 14, []⟩], []⟩

/-! # Verification -/

/-! ## Generic lemmas about the record model -/

theorem recordLookup_mem {α : Type} {r : List (String × α)} {k : String}
    {v : α} (h : recordLookup r k = some v) : (k, v) ∈ r := by
  induction r with
  | nil => simp [recordLookup] at h
  | cons hd tl ih =>
    obtain ⟨k', v'⟩ := hd
    by_cases hk : k' = k
    · subst hk
      simp [recordLookup] at h
      simp [h]
    · simp [recordLookup, hk] at h
      exact List.mem_cons_of_mem _ (ih h)

theorem recordContains_iff_keys {α : Type} (r : List (String × α))
    (k : String) : recordContains r k = true ↔ k ∈ recordKeys r := by
  induction r with
  | nil => simp [recordContains, recordLookup, recordKeys]
  | cons hd tl ih =>
    obtain ⟨k', v'⟩ := hd
    by_cases hk : k' = k
    · subst hk
      simp [recordContains, recordLookup, recordKeys]
    · simp only [recordContains, recordLookup, hk, if_false, recordKeys,
        List.map_cons, List.mem_cons]
      rw [← recordKeys, ← recordContains, ih]
      constructor
      · exact fun h => Or.inr h
      · rintro (h | h)
        · exact absurd h.symm hk
        · exact h

/-! ## C10: query results contain no dangling entities -/

theorem mem_enrichResults {graph : GraphData} {results : List TraversalResult}
    {relOf : String → Option RelationshipType} {r : EntityWithMetadata}
    (h : r ∈ enrichResults graph results relOf) :
    recordContains graph.nodes r.entityId = true := by
  unfold enrichResults at h
  rw [List.mem_map] at h
  obtain ⟨x, hx, rfl⟩ := h
  rw [List.mem_filter] at hx
  exact hx.2

/-- C10: for every graph and start entity for which the queries succeed,
every element returned by `getDependencies` and by `getDependents` has an
`entityId` that is a key of the graph's node map: traversal results whose
entity has no node entry are filtered out. -/
theorem c10_no_dangling_query_results (graph : GraphData) (entityId : String)
    (transitive : Bool) (deps dents : List EntityWithMetadata)
    (hdeps : getDependencies graph entityId transitive = some deps)
    (hdents : getDependents graph entityId transitive = some dents) :
    (∀ r ∈ deps, recordContains graph.nodes r.entityId = true) ∧
    (∀ r ∈ dents, recordContains graph.nodes r.entityId = true) := by
  constructor
  · intro r hr
    unfold getDependencies at hdeps
    rw [Option.map_eq_some'] at hdeps
    obtain ⟨results, _, hres⟩ := hdeps
    subst hres
    exact mem_enrichResults hr
  · intro r hr
    unfold getDependents at hdents
    rw [Option.map_eq_some'] at hdents
    obtain ⟨results, _, hres⟩ := hdents
    subst hres
    exact mem_enrichResults hr

/-- Witness for C10 on the concrete graph with a dangling edge target. -/
theorem c10_no_dangling_query_results_witness :
    (∀ r ∈ [(⟨"B", fileNode, 1, ["A", "B"],
        some RelationshipType.imports⟩ : EntityWithMetadata)],
      recordContains exMulti.nodes r.entityId = true) ∧
    (∀ r ∈ ([] : List EntityWithMetadata),
      recordContains exMulti.nodes r.entityId = true) :=
  c10_no_dangling_query_results exMulti "A" false _ _ (by decide) (by decide)

/-! ## C4: impact risk scoring -/

theorem calculateRiskLevel_formula (m : ImpactMetrics) :
    calculateRiskLevel m =
      (if 10 * m.affectedFilesCount + 2 * m.affectedEntitiesCount +
          5 * m.maxDepth < 20 then RiskLevel.LOW
       else if 10 * m.affectedFilesCount + 2 * m.affectedEntitiesCount +
          5 * m.maxDepth < 50 then RiskLevel.MEDIUM
       else if 10 * m.affectedFilesCount + 2 * m.affectedEntitiesCount +
          5 * m.maxDepth < 100 then RiskLevel.HIGH
       else RiskLevel.CRITICAL) := by
  unfold calculateRiskLevel
  rw [Nat.mul_comm m.affectedFilesCount 10,
    Nat.mul_comm m.affectedEntitiesCount 2, Nat.mul_comm m.maxDepth 5]

/-- C4: for every graph and non-empty changed-file list, the risk level of
`analyzeImpact` is the classification, by the thresholds 20/50/100, of the
score `10×affectedFilesCount + 2×affectedEntitiesCount + 5×maxDepth` over
its own computed metrics; and metrics with 2 distinct affected files, 5
affected-entity records and max depth 3 score 45 and classify as MEDIUM. -/
theorem c4_risk_scoring (graph : GraphData) (changedFiles : List String)
    (hne : changedFiles ≠ []) :
    ((analyzeImpact graph changedFiles).riskLevel =
      (if 10 * (analyzeImpact graph changedFiles).metrics.affectedFilesCount +
          2 * (analyzeImpact graph changedFiles).metrics.affectedEntitiesCount +
          5 * (analyzeImpact graph changedFiles).metrics.maxDepth < 20
        then RiskLevel.LOW
       else if 10 * (analyzeImpact graph changedFiles).metrics.affectedFilesCount +
          2 * (analyzeImpact graph changedFiles).metrics.affectedEntitiesCount +
          5 * (analyzeImpact graph changedFiles).metrics.maxDepth < 50
        then RiskLevel.MEDIUM
       else if 10 * (analyzeImpact graph changedFiles).metrics.affectedFilesCount +
          2 * (analyzeImpact graph changedFiles).metrics.affectedEntitiesCount +
          5 * (analyzeImpact graph changedFiles).metrics.maxDepth < 100
        then RiskLevel.HIGH
       else RiskLevel.CRITICAL)) ∧
    calculateRiskLevel ⟨1, 5, 2, ⟨0, 0, 0, 0, 0⟩, 3⟩ = RiskLevel.MEDIUM ∧
    (10 * 2 + 2 * 5 + 5 * 3 : Nat) = 45 := by
  refine ⟨?_, by decide, by decide⟩
  rw [← calculateRiskLevel_formula]
  have hE : changedFiles.isEmpty = false := by
    cases changedFiles with
    | nil => exact absurd rfl hne
    | cons a l => rfl
  simp only [analyzeImpact, hE, Bool.false_eq_true, if_false]

/-- Witness for C4 at a concrete graph and changed-file list. -/
theorem c4_risk_scoring_witness :
    ((analyzeImpact exEmpty ["a.ts"]).riskLevel =
      (if 10 * (analyzeImpact exEmpty ["a.ts"]).metrics.affectedFilesCount +
          2 * (analyzeImpact exEmpty ["a.ts"]).metrics.affectedEntitiesCount +
          5 * (analyzeImpact exEmpty ["a.ts"]).metrics.maxDepth < 20
        then RiskLevel.LOW
       else if 10 * (analyzeImpact exEmpty ["a.ts"]).metrics.affectedFilesCount +
          2 * (analyzeImpact exEmpty ["a.ts"]).metrics.affectedEntitiesCount +
          5 * (analyzeImpact exEmpty ["a.ts"]).metrics.maxDepth < 50
        then RiskLevel.MEDIUM
       else if 10 * (analyzeImpact exEmpty ["a.ts"]).metrics.affectedFilesCount +
          2 * (analyzeImpact exEmpty ["a.ts"]).metrics.affectedEntitiesCount +
          5 * (analyzeImpact exEmpty ["a.ts"]).metrics.maxDepth < 100
        then RiskLevel.HIGH
       else RiskLevel.CRITICAL)) ∧
    calculateRiskLevel ⟨1, 5, 2, ⟨0, 0, 0, 0, 0⟩, 3⟩ = RiskLevel.MEDIUM ∧
    (10 * 2 + 2 * 5 + 5 * 3 : Nat) = 45 :=
  c4_risk_scoring exEmpty ["a.ts"] (by decide)

/-! ## C5: diff edge-set semantics -/

/-- C5 counterexample: two graphs with identical node maps and identical
edge triple-sets (a duplicate triple stored twice versus once) produce
different added-edge summary counts, so the diff does not depend only on
the triple-sets. -/
theorem c5_counterexample :
    exDupEdges.edges.toFinset = exSingleEdge.edges.toFinset ∧
    exDupEdges.nodes = exSingleEdge.nodes ∧
    (compareGraphs exEmpty exDupEdges).summary.totalEdgesAdded = 2 ∧
    (compareGraphs exEmpty exSingleEdge).summary.totalEdgesAdded = 1 := by
  refine ⟨by decide, rfl, by decide, by decide⟩

/-- C5 (amended): `compareGraphs` keys edges by the string
`source::relationship::target`; a triple present in both graphs is neither
added nor removed, and the added/removed results depend on the *other*
graph's edge list only through its key-set — but they are filters of this
graph's raw edge array, so duplicate triples are reported with their
multiplicity, and the summary counts are the lengths of those lists. -/
theorem c5_edge_diff_semantics (g1 g1x g2 : GraphData) (e : Edge)
    (hkeys : ∀ s, (g1.edges.map edgeToString).contains s =
      (g1x.edges.map edgeToString).contains s) :
    ((compareGraphs g1 g2).addedEdges = (compareGraphs g1x g2).addedEdges) ∧
    ((compareGraphs g2 g1).removedEdges = (compareGraphs g2 g1x).removedEdges) ∧
    (e ∈ g1.edges → e ∈ g2.edges →
      e ∉ (compareGraphs g1 g2).addedEdges ∧
      e ∉ (compareGraphs g1 g2).removedEdges) ∧
    ((compareGraphs g1 g2).summary.totalEdgesAdded =
      (compareGraphs g1 g2).addedEdges.length) ∧
    ((compareGraphs g1 g2).summary.totalEdgesRemoved =
      (compareGraphs g1 g2).removedEdges.length) := by
  refine ⟨?_, ?_, ?_, rfl, rfl⟩
  · show g2.edges.filter _ = g2.edges.filter _
    apply List.filter_congr
    intro ed _
    simp only [hkeys]
  · show g2.edges.filter _ = g2.edges.filter _
    apply List.filter_congr
    intro ed _
    simp only [hkeys]
  · intro h1 h2
    have hs1 : (g1.edges.map edgeToString).contains (edgeToString e) = true := by
      rw [List.elem_iff]
      exact List.mem_map_of_mem _ h1
    have hs2 : (g2.edges.map edgeToString).contains (edgeToString e) = true := by
      rw [List.elem_iff]
      exact List.mem_map_of_mem _ h2
    constructor
    · intro hmem
      have := (List.mem_filter.mp hmem).2
      simp [hs1] at this
      exact this e h1 rfl
    · intro hmem
      have := (List.mem_filter.mp hmem).2
      simp [hs2] at this
      exact this e h2 rfl

/-- Witness for C5 (amended) at concrete graphs. -/
theorem c5_edge_diff_semantics_witness :
    ((compareGraphs exSingleEdge exDupEdges).addedEdges =
      (compareGraphs exDupEdges exDupEdges).addedEdges) ∧
    ((compareGraphs exDupEdges exSingleEdge).removedEdges =
      (compareGraphs exDupEdges exDupEdges).removedEdges) ∧
    ((⟨"a", .imports, "b"⟩ : Edge) ∈ exSingleEdge.edges →
      (⟨"a", .imports, "b"⟩ : Edge) ∈ exDupEdges.edges →
      (⟨"a", .imports, "b"⟩ : Edge) ∉
        (compareGraphs exSingleEdge exDupEdges).addedEdges ∧
      (⟨"a", .imports, "b"⟩ : Edge) ∉
        (compareGraphs exSingleEdge exDupEdges).removedEdges) ∧
    ((compareGraphs exSingleEdge exDupEdges).summary.totalEdgesAdded =
      (compareGraphs exSingleEdge exDupEdges).addedEdges.length) ∧
    ((compareGraphs exSingleEdge exDupEdges).summary.totalEdgesRemoved =
      (compareGraphs exSingleEdge exDupEdges).removedEdges.length) :=
  c5_edge_diff_semantics exSingleEdge exDupEdges exDupEdges _
    (by intro s; simp [exSingleEdge, exDupEdges, edgeToString, relationshipString])

/-! ## C2: relative import resolution order -/

/-- C2 counterexample: with an oracle on which both the bare path
`/root/a/utils` and `/root/a/utils.ts` exist, the resolver returns
`a/utils.ts` — the `.ts` candidate — not the normalized bare path
`a/utils` that a bare-path-first probe order would produce. -/
theorem c2_counterexample :
    resolveImportPath exBareOracle "./utils" "a/m.ts" "/root" none =
      some "a/utils.ts" ∧
    exBareOracle "/root/a/utils" = true ∧
    normalizePath "/root/a/utils" "/root" = "a/utils" ∧
    ("a/utils.ts" : String) ≠ "a/utils" := by
  refine ⟨by decide, by decide, by decide, by decide⟩

/-- C2 (amended): for every oracle and every relative specifier, the
resolver probes, in fixed order, `.ts`, `.tsx`, `/index.ts`, `/index.tsx`
and the bare path *last*, returns the first candidate the oracle accepts
normalized against the project root, and returns `none` exactly when no
candidate exists; it is a total function, so resolution failure is a
value, never an exception. -/
theorem c2_relative_resolution (fsExists : String → Bool)
    (importFrom fromFile projectRoot : String)
    (hrel : strStartsWith importFrom "." = true) :
    (resolveImportPath fsExists importFrom fromFile projectRoot none =
      ((let basePath :=
          posixJoin [projectRoot, posixDirname fromFile, importFrom]
        [basePath ++ ".ts", basePath ++ ".tsx", basePath ++ "/index.ts",
          basePath ++ "/index.tsx", basePath]).find? fsExists).map
        (fun c => normalizePath c projectRoot)) ∧
    (resolveImportPath fsExists importFrom fromFile projectRoot none = none ↔
      ∀ c ∈ (let basePath :=
          posixJoin [projectRoot, posixDirname fromFile, importFrom]
        [basePath ++ ".ts", basePath ++ ".tsx", basePath ++ "/index.ts",
          basePath ++ "/index.tsx", basePath]), fsExists c = false) := by
  have hres : resolveImportPath fsExists importFrom fromFile projectRoot none =
      ((let basePath :=
          posixJoin [projectRoot, posixDirname fromFile, importFrom]
        [basePath ++ ".ts", basePath ++ ".tsx", basePath ++ "/index.ts",
          basePath ++ "/index.tsx", basePath]).find? fsExists).map
        (fun c => normalizePath c projectRoot) := by
    unfold resolveImportPath
    rw [if_pos hrel]
    unfold tryResolveCandidates
    cases hfind : ([posixJoin [projectRoot, posixDirname fromFile, importFrom]
        ++ ".ts", posixJoin [projectRoot, posixDirname fromFile, importFrom]
        ++ ".tsx", posixJoin [projectRoot, posixDirname fromFile, importFrom]
        ++ "/index.ts", posixJoin [projectRoot, posixDirname fromFile,
        importFrom] ++ "/index.tsx", posixJoin [projectRoot,
        posixDirname fromFile, importFrom]]).find? fsExists with
    | none => simp [hfind, tryResolveCandidates]
    | some c => simp [hfind]
  refine ⟨hres, ?_⟩
  rw [hres]
  simp only [Option.map_eq_none']
  rw [List.find?_eq_none]
  simp

/-- Witness for C2 (amended) at the concrete probe-order scenario. -/
theorem c2_relative_resolution_witness :
    (resolveImportPath exBareOracle "./utils" "a/m.ts" "/root" none =
      ((let basePath := posixJoin ["/root", posixDirname "a/m.ts", "./utils"]
        [basePath ++ ".ts", basePath ++ ".tsx", basePath ++ "/index.ts",
          basePath ++ "/index.tsx", basePath]).find? exBareOracle).map
        (fun c => normalizePath c "/root")) ∧
    (resolveImportPath exBareOracle "./utils" "a/m.ts" "/root" none = none ↔
      ∀ c ∈ (let basePath := posixJoin ["/root", posixDirname "a/m.ts",
          "./utils"]
        [basePath ++ ".ts", basePath ++ ".tsx", basePath ++ "/index.ts",
          basePath ++ "/index.tsx", basePath]), exBareOracle c = false) :=
  c2_relative_resolution exBareOracle "./utils" "a/m.ts" "/root" (by decide)

/-! ## C1: node/edge integrity of the built graph -/

theorem recordContains_recordSet_self {α : Type} (r : List (String × α))
    (k : String) (v : α) : recordContains (recordSet r k v) k = true := by
  induction r with
  | nil => simp [recordSet, recordContains, recordLookup]
  | cons hd tl ih =>
    obtain ⟨k', v'⟩ := hd
    by_cases hk : k' = k
    · simp [recordSet, hk, recordContains, recordLookup]
    · simpa [recordSet, hk, recordContains, recordLookup] using ih

theorem recordContains_recordSet_mono {α : Type} {r : List (String × α)}
    {k' : String} (k : String) (v : α)
    (h : recordContains r k' = true) :
    recordContains (recordSet r k v) k' = true := by
  induction r with
  | nil => simp [recordContains, recordLookup] at h
  | cons hd tl ih =>
    obtain ⟨k0, v0⟩ := hd
    by_cases hk : k0 = k
    · subst hk
      by_cases hk' : k0 = k'
      · simp [recordSet, recordContains, recordLookup, hk']
      · simp [recordSet, recordContains, recordLookup, hk'] at h ⊢
        exact h
    · by_cases hk' : k0 = k'
      · subst hk'
        simp [recordSet, hk, recordContains, recordLookup]
      · simp [recordSet, hk, recordContains, recordLookup, hk'] at h ⊢
        exact ih h

theorem contains_foldl_mono {α β : Type}
    (step : List (String × α) → β → List (String × α))
    (hstep : ∀ r b k, recordContains r k = true →
      recordContains (step r b) k = true)
    (l : List β) (r : List (String × α)) (k : String)
    (h : recordContains r k = true) :
    recordContains (l.foldl step r) k = true := by
  induction l generalizing r with
  | nil => simpa using h
  | cons b tl ih => exact ih _ (hstep _ _ _ h)

theorem contains_foldl_establish {α β : Type}
    (step : List (String × α) → β → List (String × α))
    (hstep : ∀ r b k, recordContains r k = true →
      recordContains (step r b) k = true)
    (l : List β) (r : List (String × α)) (b : β) (k : String)
    (hb : b ∈ l) (hself : ∀ r0, recordContains (step r0 b) k = true) :
    recordContains (l.foldl step r) k = true := by
  induction l generalizing r with
  | nil => cases hb
  | cons hd tl ih =>
    rcases List.mem_cons.mp hb with heq | hb'
    · subst heq
      exact contains_foldl_mono step hstep tl _ k (hself r)
    · exact ih _ hb'


theorem addFileNodes_mono {pf : ParsedFile} {r : List (String × GNode)}
    {k : String} (h : recordContains r k = true) :
    recordContains (addFileNodes pf r) k = true := by
  unfold addFileNodes
  apply contains_foldl_mono
  · intro r0 b k0 h0
    exact recordContains_recordSet_mono _ _ h0
  apply contains_foldl_mono
  · intro r0 c k0 h0
    apply contains_foldl_mono
    · intro r1 m k1 h1
      exact recordContains_recordSet_mono _ _ h1
    exact recordContains_recordSet_mono _ _ h0
  exact recordContains_recordSet_mono _ _ h

theorem addFileNodes_contains_fileId (pf : ParsedFile)
    (r : List (String × GNode)) :
    recordContains (addFileNodes pf r) (formatFileId pf.filePath) = true := by
  unfold addFileNodes
  apply contains_foldl_mono
  · intro r0 b k0 h0
    exact recordContains_recordSet_mono _ _ h0
  apply contains_foldl_mono
  · intro r0 c k0 h0
    apply contains_foldl_mono
    · intro r1 m k1 h1
      exact recordContains_recordSet_mono _ _ h1
    exact recordContains_recordSet_mono _ _ h0
  exact recordContains_recordSet_self _ _ _

theorem addFileNodes_contains_classId {pf : ParsedFile} {c : ParsedClass}
    (hc : c ∈ pf.classes) (r : List (String × GNode)) :
    recordContains (addFileNodes pf r)
      (formatClassId pf.filePath c.name) = true := by
  unfold addFileNodes
  apply contains_foldl_mono
  · intro r0 b k0 h0
    exact recordContains_recordSet_mono _ _ h0
  apply contains_foldl_establish _ ?hmono _ _ c _ hc
  · intro r0
    apply contains_foldl_mono
    · intro r1 m k1 h1
      exact recordContains_recordSet_mono _ _ h1
    exact recordContains_recordSet_self _ _ _
  case hmono =>
    intro r0 c0 k0 h0
    apply contains_foldl_mono
    · intro r1 m k1 h1
      exact recordContains_recordSet_mono _ _ h1
    exact recordContains_recordSet_mono _ _ h0

theorem addFileNodes_contains_methodId {pf : ParsedFile} {c : ParsedClass}
    {m : ParsedMethod} (hc : c ∈ pf.classes) (hm : m ∈ c.methods)
    (r : List (String × GNode)) :
    recordContains (addFileNodes pf r)
      (formatMethodId pf.filePath c.name m.name) = true := by
  unfold addFileNodes
  apply contains_foldl_mono
  · intro r0 b k0 h0
    exact recordContains_recordSet_mono _ _ h0
  apply contains_foldl_establish _ ?hmono _ _ c _ hc
  · intro r0
    apply contains_foldl_establish _ ?hmono2 _ _ m _ hm
    · intro r1
      exact recordContains_recordSet_self _ _ _
    case hmono2 =>
      intro r1 m0 k1 h1
      exact recordContains_recordSet_mono _ _ h1
  case hmono =>
    intro r0 c0 k0 h0
    apply contains_foldl_mono
    · intro r1 m0 k1 h1
      exact recordContains_recordSet_mono _ _ h1
    exact recordContains_recordSet_mono _ _ h0

theorem addFileNodes_contains_functionId {pf : ParsedFile}
    {fn : ParsedFunction} (hfn : fn ∈ pf.functions)
    (r : List (String × GNode)) :
    recordContains (addFileNodes pf r)
      (formatFunctionId pf.filePath fn.name) = true := by
  unfold addFileNodes
  apply contains_foldl_establish _ ?hmono _ _ fn _ hfn
  · intro r0
    exact recordContains_recordSet_self _ _ _
  case hmono =>
    intro r0 b k0 h0
    exact recordContains_recordSet_mono _ _ h0

theorem mem_foldl_append {α β : Type} (f : β → List α)
    (l : List β) (init : List α) (e : α)
    (h : e ∈ l.foldl (fun acc b => acc ++ f b) init) :
    e ∈ init ∨ ∃ b ∈ l, e ∈ f b := by
  induction l generalizing init with
  | nil => exact Or.inl (by simpa using h)
  | cons hd tl ih =>
    rcases ih _ h with h0 | ⟨b, hb, he⟩
    · rcases List.mem_append.mp h0 with h1 | h1
      · exact Or.inl h1
      · exact Or.inr ⟨hd, List.mem_cons_self _ _, h1⟩
    · exact Or.inr ⟨b, List.mem_cons_of_mem _ hb, he⟩

theorem mem_importEdges {fsExists : String → Bool} {pf : ParsedFile}
    {projectRoot : String} {nodes : List (String × GNode)} {e : Edge}
    (h : e ∈ importEdges fsExists pf projectRoot nodes) :
    e.source = formatFileId pf.filePath ∧ e.relationship = .imports ∧
      recordContains nodes e.target = true := by
  unfold importEdges at h
  rw [List.mem_flatMap] at h
  obtain ⟨imp, _, he⟩ := h
  by_cases ht : imp.isTypeOnly
  · simp [ht] at he
  · simp only [ht, if_false, Bool.false_eq_true] at he
    cases hres : resolveImportPath fsExists imp.from_ pf.filePath
      projectRoot none with
    | none => rw [hres] at he; simp at he
    | some targetPath =>
      rw [hres] at he
      by_cases hc : recordContains nodes (formatFileId targetPath) = true
      · simp only [hc, if_true] at he
        rw [List.mem_singleton] at he
        subst he
        exact ⟨rfl, rfl, hc⟩
      · simp [hc] at he

theorem mem_classEdges {pf : ParsedFile} {e : Edge}
    (h : e ∈ classEdges pf) :
    ∃ c ∈ pf.classes, ∃ m ∈ c.methods,
      e.source = formatMethodId pf.filePath c.name m.name ∧
      e.relationship = .calls := by
  unfold classEdges at h
  rw [List.mem_flatMap] at h
  obtain ⟨c, hc, he⟩ := h
  rw [List.mem_append] at he
  rcases he with he | he
  · rw [List.mem_append] at he
    rcases he with he | he
    · cases hext : c.extends_ with
      | none => rw [hext] at he; simp at he
      | some x => rw [hext] at he; simp [resolveClassName] at he
    · cases himp : c.implements_ with
      | none => rw [himp] at he; simp at he
      | some xs => rw [himp] at he; simp [resolveInterfaceName] at he
  · rw [List.mem_flatMap] at he
    obtain ⟨m, hm, he⟩ := he
    rw [List.mem_flatMap] at he
    obtain ⟨call, _, he⟩ := he
    cases hres : resolveCallTarget call pf.filePath (some c.name) with
    | none => rw [hres] at he; simp at he
    | some targetId =>
      rw [hres] at he
      rw [List.mem_singleton] at he
      subst he
      exact ⟨c, hc, m, hm, rfl, rfl⟩

theorem mem_functionEdges {pf : ParsedFile} {e : Edge}
    (h : e ∈ functionEdges pf) :
    ∃ fn ∈ pf.functions,
      e.source = formatFunctionId pf.filePath fn.name ∧
      e.relationship = .calls := by
  unfold functionEdges at h
  rw [List.mem_flatMap] at h
  obtain ⟨fn, hfn, he⟩ := h
  rw [List.mem_flatMap] at he
  obtain ⟨call, _, he⟩ := he
  cases hres : resolveCallTarget call pf.filePath none with
  | none => rw [hres] at he; simp at he
  | some targetId =>
    rw [hres] at he
    rw [List.mem_singleton] at he
    subst he
    exact ⟨fn, hfn, rfl, rfl⟩

theorem buildNodes_contains_fileId {parsedFiles : List ParsedFile}
    {pf : ParsedFile} (hpf : pf ∈ parsedFiles) :
    recordContains (parsedFiles.foldl (fun acc p => addFileNodes p acc) [])
      (formatFileId pf.filePath) = true := by
  apply contains_foldl_establish _ ?hmono _ _ pf _ hpf
  · intro r0
    exact addFileNodes_contains_fileId pf r0
  case hmono =>
    intro r b k h
    exact addFileNodes_mono h

theorem buildNodes_contains_methodId {parsedFiles : List ParsedFile}
    {pf : ParsedFile} {c : ParsedClass} {m : ParsedMethod}
    (hpf : pf ∈ parsedFiles) (hc : c ∈ pf.classes) (hm : m ∈ c.methods) :
    recordContains (parsedFiles.foldl (fun acc p => addFileNodes p acc) [])
      (formatMethodId pf.filePath c.name m.name) = true := by
  apply contains_foldl_establish _ ?hmono _ _ pf _ hpf
  · intro r0
    exact addFileNodes_contains_methodId hc hm r0
  case hmono =>
    intro r b k h
    exact addFileNodes_mono h

theorem buildNodes_contains_functionId {parsedFiles : List ParsedFile}
    {pf : ParsedFile} {fn : ParsedFunction}
    (hpf : pf ∈ parsedFiles) (hfn : fn ∈ pf.functions) :
    recordContains (parsedFiles.foldl (fun acc p => addFileNodes p acc) [])
      (formatFunctionId pf.filePath fn.name) = true := by
  apply contains_foldl_establish _ ?hmono _ _ pf _ hpf
  · intro r0
    exact addFileNodes_contains_functionId hfn r0
  case hmono =>
    intro r b k h
    exact addFileNodes_mono h

/-- C1 counterexample: a parsed file whose function `f` calls an undeclared
`g` produces a `calls` edge whose target `a.ts::g` has no node entry, so
the claimed integrity invariant fails for `calls` edges. -/
theorem c1_counterexample :
    (⟨"a.ts::f", RelationshipType.calls, "a.ts::g"⟩ : Edge) ∈
      (buildGraph (fun _ => false) [exCallFile] "c" "/r" "t0").edges ∧
    recordContains (buildGraph (fun _ => false) [exCallFile] "c" "/r"
      "t0").nodes "a.ts::g" = false := by
  refine ⟨by decide, by decide⟩

/-- C1 (amended): in every built graph, every edge's source is a key of
the node map, every `imports` edge's target is a key of the node map
(an import edge is only created after a node-existence check), and no
`extends` or `implements` edge is ever created; `calls` edges, however,
are created without a target-existence check, so their targets may be
absent from the node map. -/
theorem c1_edge_integrity (fsExists : String → Bool)
    (parsedFiles : List ParsedFile) (commitHash projectRoot timestamp : String) :
    (∀ e ∈ (buildGraph fsExists parsedFiles commitHash projectRoot
        timestamp).edges,
      recordContains (buildGraph fsExists parsedFiles commitHash projectRoot
        timestamp).nodes e.source = true) ∧
    (∀ e ∈ (buildGraph fsExists parsedFiles commitHash projectRoot
        timestamp).edges, e.relationship = .imports →
      recordContains (buildGraph fsExists parsedFiles commitHash projectRoot
        timestamp).nodes e.target = true) ∧
    (∀ e ∈ (buildGraph fsExists parsedFiles commitHash projectRoot
        timestamp).edges,
      e.relationship ≠ .extends_ ∧ e.relationship ≠ .implements_) := by
  have main : ∀ e ∈ (buildGraph fsExists parsedFiles commitHash projectRoot
      timestamp).edges,
      recordContains (buildGraph fsExists parsedFiles commitHash projectRoot
        timestamp).nodes e.source = true ∧
      (e.relationship = .imports →
        recordContains (buildGraph fsExists parsedFiles commitHash projectRoot
          timestamp).nodes e.target = true) ∧
      e.relationship ≠ .extends_ ∧ e.relationship ≠ .implements_ := by
    intro e he
    have hnodes : (buildGraph fsExists parsedFiles commitHash projectRoot
        timestamp).nodes =
        parsedFiles.foldl (fun acc p => addFileNodes p acc) [] := rfl
    have hedges : (buildGraph fsExists parsedFiles commitHash projectRoot
        timestamp).edges =
        parsedFiles.foldl (fun acc pf => addFileEdges fsExists pf acc
          projectRoot (parsedFiles.foldl (fun acc p => addFileNodes p acc) []))
          [] := rfl
    rw [hedges] at he
    rw [hnodes]
    have hsplit := mem_foldl_append
      (fun pf => importEdges fsExists pf projectRoot
        (parsedFiles.foldl (fun acc p => addFileNodes p acc) []) ++
        classEdges pf ++ functionEdges pf) parsedFiles [] e
    rw [show (fun (acc : List Edge) (pf : ParsedFile) => addFileEdges fsExists
      pf acc projectRoot (parsedFiles.foldl (fun acc p => addFileNodes p acc)
      [])) = (fun acc pf => acc ++ (importEdges fsExists pf projectRoot
        (parsedFiles.foldl (fun acc p => addFileNodes p acc) []) ++
        classEdges pf ++ functionEdges pf)) from ?_] at he
    · rcases hsplit he with h0 | ⟨pf, hpf, hin⟩
      · cases h0
      rw [List.mem_append] at hin
      rcases hin with hin | hin
      · rw [List.mem_append] at hin
        rcases hin with hin | hin
        · obtain ⟨hsrc, hrel, htgt⟩ := mem_importEdges hin
          refine ⟨?_, fun _ => htgt, ?_, ?_⟩
          · rw [hsrc]
            exact buildNodes_contains_fileId hpf
          · rw [hrel]; intro hcon; cases hcon
          · rw [hrel]; intro hcon; cases hcon
        · obtain ⟨c, hc, m, hm, hsrc, hrel⟩ := mem_classEdges hin
          refine ⟨?_, ?_, ?_, ?_⟩
          · rw [hsrc]
            exact buildNodes_contains_methodId hpf hc hm
          · rw [hrel]; intro hcon; cases hcon
          · rw [hrel]; intro hcon; cases hcon
          · rw [hrel]; intro hcon; cases hcon
      · obtain ⟨fn, hfn, hsrc, hrel⟩ := mem_functionEdges hin
        refine ⟨?_, ?_, ?_, ?_⟩
        · rw [hsrc]
          exact buildNodes_contains_functionId hpf hfn
        · rw [hrel]; intro hcon; cases hcon
        · rw [hrel]; intro hcon; cases hcon
        · rw [hrel]; intro hcon; cases hcon
    · funext acc pf
      simp [addFileEdges, List.append_assoc]
  exact ⟨fun e he => (main e he).1, fun e he => (main e he).2.1,
    fun e he => (main e he).2.2⟩

/-- Witness for C1 (amended) at a concrete build. -/
theorem c1_edge_integrity_witness :
    (∀ e ∈ (buildGraph (fun _ => false) [exCallFile] "c" "/r" "t0").edges,
      recordContains (buildGraph (fun _ => false) [exCallFile] "c" "/r"
        "t0").nodes e.source = true) ∧
    (∀ e ∈ (buildGraph (fun _ => false) [exCallFile] "c" "/r" "t0").edges,
      e.relationship = .imports →
      recordContains (buildGraph (fun _ => false) [exCallFile] "c" "/r"
        "t0").nodes e.target = true) ∧
    (∀ e ∈ (buildGraph (fun _ => false) [exCallFile] "c" "/r" "t0").edges,
      e.relationship ≠ .extends_ ∧ e.relationship ≠ .implements_) :=
  c1_edge_integrity (fun _ => false) [exCallFile] "c" "/r" "t0"

/-! ## C9: node pass completeness -/

theorem recordContains_append {α : Type} (a b : List (String × α))
    (k : String) :
    recordContains (a ++ b) k = (recordContains a k || recordContains b k) := by
  induction a with
  | nil => simp [recordContains, recordLookup]
  | cons hd tl ih =>
    obtain ⟨k0, v0⟩ := hd
    by_cases hk : k0 = k
    · simp [recordContains, recordLookup, hk]
    · simpa [recordContains, recordLookup, hk] using ih

theorem recordContains_eq_false_iff {α : Type} (r : List (String × α))
    (k : String) :
    recordContains r k = false ↔ k ∉ recordKeys r := by
  rw [← Bool.not_eq_true, not_iff_not]
  exact recordContains_iff_keys r k

theorem recordSet_eq_append {α : Type} {r : List (String × α)} {k : String}
    (v : α) (h : recordContains r k = false) :
    recordSet r k v = r ++ [(k, v)] := by
  induction r with
  | nil => simp [recordSet]
  | cons hd tl ih =>
    obtain ⟨k0, v0⟩ := hd
    by_cases hk : k0 = k
    · subst hk
      simp [recordContains, recordLookup] at h
    · simp only [recordContains, recordLookup, hk, if_false] at h
      simp [recordSet, hk, ih h]

theorem foldl_step_eq_append {β : Type}
    (step : List (String × GNode) → β → List (String × GNode))
    (ent : β → List (String × GNode))
    (hstep : ∀ r b, ((ent b).map Prod.fst).Nodup →
      (∀ k ∈ (ent b).map Prod.fst, recordContains r k = false) →
      step r b = r ++ ent b) :
    ∀ (l : List β) (r : List (String × GNode)),
      ((l.flatMap ent).map Prod.fst).Nodup →
      (∀ k ∈ (l.flatMap ent).map Prod.fst, recordContains r k = false) →
      l.foldl step r = r ++ l.flatMap ent := by
  intro l
  induction l with
  | nil => intro r _ _; simp
  | cons hd tl ih =>
    intro r hnodup hfresh
    have hsplit : (hd :: tl).flatMap ent = ent hd ++ tl.flatMap ent := by
      simp [List.flatMap_cons]
    rw [hsplit, List.map_append] at hnodup hfresh
    have hnodupL := hnodup.of_append_left
    have hnodupR := hnodup.of_append_right
    have hdisj := List.disjoint_of_nodup_append hnodup
    have hstep1 : step r hd = r ++ ent hd := by
      apply hstep _ _ hnodupL
      intro k hk
      exact hfresh k (List.mem_append.mpr (Or.inl hk))
    rw [List.foldl_cons, hstep1]
    rw [ih (r ++ ent hd) hnodupR ?fresh2]
    · rw [hsplit, List.append_assoc]
    case fresh2 =>
      intro k hk
      rw [recordContains_append, Bool.or_eq_false_iff]
      constructor
      · exact hfresh k (List.mem_append.mpr (Or.inr hk))
      · rw [recordContains_eq_false_iff]
        exact fun hmem => hdisj hmem hk


theorem classStep_eq_append (filePath : String) (c : ParsedClass)
    (r : List (String × GNode))
    (hnodup : ((classEntries filePath c).map Prod.fst).Nodup)
    (hfresh : ∀ k ∈ (classEntries filePath c).map Prod.fst,
      recordContains r k = false) :
    c.methods.foldl
      (fun acc2 m =>
        recordSet acc2 (formatMethodId filePath c.name m.name)
          ⟨.method, some filePath, some m.line, some m.endLine⟩)
      (recordSet r (formatClassId filePath c.name)
        ⟨.class_, some filePath, some c.line, some c.endLine⟩) =
      r ++ classEntries filePath c := by
  have hkeys : (classEntries filePath c).map Prod.fst =
      formatClassId filePath c.name ::
        c.methods.map (fun m => formatMethodId filePath c.name m.name) := by
    simp [classEntries, methodEntry, Function.comp]
  rw [hkeys] at hnodup hfresh
  rw [List.nodup_cons] at hnodup
  have h1 : recordSet r (formatClassId filePath c.name)
      (⟨.class_, some filePath, some c.line, some c.endLine⟩ : GNode) =
      r ++ [(formatClassId filePath c.name,
        (⟨.class_, some filePath, some c.line, some c.endLine⟩ : GNode))] :=
    recordSet_eq_append _ (hfresh _ (List.mem_cons_self _ _))
  rw [h1]
  have h2 := foldl_step_eq_append
    (fun acc2 m =>
      recordSet acc2 (formatMethodId filePath c.name m.name)
        ⟨.method, some filePath, some m.line, some m.endLine⟩)
    (fun m => [methodEntry filePath c.name m])
    ?hstep c.methods
    (r ++ [(formatClassId filePath c.name,
      (⟨.class_, some filePath, some c.line, some c.endLine⟩ : GNode))])
    ?hn ?hf
  · rw [h2]
    have hms : c.methods.flatMap (fun m => [methodEntry filePath c.name m]) =
        c.methods.map (methodEntry filePath c.name) :=
      (List.map_eq_flatMap _ _).symm
    rw [hms, List.append_assoc]
    simp [classEntries]
  case hstep =>
    intro r0 m _ hf0
    exact recordSet_eq_append _ (hf0 _ (by simp [methodEntry]))
  case hn =>
    have : (c.methods.flatMap
        (fun m => [methodEntry filePath c.name m])).map Prod.fst =
        c.methods.map (fun m => formatMethodId filePath c.name m.name) := by
      rw [(List.map_eq_flatMap _ _).symm]
      simp [methodEntry, Function.comp]
    rw [this]
    exact hnodup.2
  case hf =>
    intro k hk
    have hk' : k ∈ c.methods.map
        (fun m => formatMethodId filePath c.name m.name) := by
      rw [show (c.methods.flatMap
          (fun m => [methodEntry filePath c.name m])).map Prod.fst =
          c.methods.map (fun m => formatMethodId filePath c.name m.name) from
        ?_] at hk
      · exact hk
      · rw [(List.map_eq_flatMap _ _).symm]
        simp [methodEntry, Function.comp]
    rw [recordContains_append, Bool.or_eq_false_iff]
    refine ⟨hfresh _ (List.mem_cons_of_mem _ hk'), ?_⟩
    rw [recordContains_eq_false_iff]
    intro hmem
    simp [recordKeys] at hmem
    exact hnodup.1 (hmem ▸ hk')

theorem addFileNodes_eq_append (pf : ParsedFile)
    (r : List (String × GNode))
    (hnodup : ((entriesOfFile pf).map Prod.fst).Nodup)
    (hfresh : ∀ k ∈ (entriesOfFile pf).map Prod.fst,
      recordContains r k = false) :
    addFileNodes pf r = r ++ entriesOfFile pf := by
  have hkeys : (entriesOfFile pf).map Prod.fst =
      formatFileId pf.filePath ::
        ((pf.classes.flatMap (classEntries pf.filePath)).map Prod.fst ++
          (pf.functions.map (functionEntry pf.filePath)).map Prod.fst) := by
    simp [entriesOfFile]
  rw [hkeys] at hnodup hfresh
  rw [List.nodup_cons, List.nodup_append] at hnodup
  obtain ⟨hfile, hcn, hfn, hdisj⟩ := hnodup
  simp only [addFileNodes]
  have h1 : recordSet r (formatFileId pf.filePath)
      (⟨.file, none, none, none⟩ : GNode) =
      r ++ [(formatFileId pf.filePath, (⟨.file, none, none, none⟩ : GNode))] :=
    recordSet_eq_append _ (hfresh _ (List.mem_cons_self _ _))
  rw [h1]
  have h2 := foldl_step_eq_append
    (fun acc classDecl =>
      classDecl.methods.foldl
        (fun acc2 m =>
          recordSet acc2 (formatMethodId pf.filePath classDecl.name m.name)
            ⟨.method, some pf.filePath, some m.line, some m.endLine⟩)
        (recordSet acc (formatClassId pf.filePath classDecl.name)
          ⟨.class_, some pf.filePath, some classDecl.line,
            some classDecl.endLine⟩))
    (classEntries pf.filePath) ?hstepC pf.classes
    (r ++ [(formatFileId pf.filePath, (⟨.file, none, none, none⟩ : GNode))])
    hcn ?hfC
  · rw [h2]
    have h3 := foldl_step_eq_append
      (fun acc fn =>
        recordSet acc (formatFunctionId pf.filePath fn.name)
          ⟨.function_, some pf.filePath, some fn.line, some fn.endLine⟩)
      (fun fn => [functionEntry pf.filePath fn]) ?hstepF pf.functions
      ((r ++ [(formatFileId pf.filePath, (⟨.file, none, none, none⟩ : GNode))])
        ++ pf.classes.flatMap (classEntries pf.filePath))
      ?hnF ?hfF
    · rw [h3]
      have hfs : pf.functions.flatMap
          (fun fn => [functionEntry pf.filePath fn]) =
          pf.functions.map (functionEntry pf.filePath) :=
        (List.map_eq_flatMap _ _).symm
      rw [hfs]
      simp [entriesOfFile, List.append_assoc]
    case hstepF =>
      intro r0 fn _ hf0
      exact recordSet_eq_append _ (hf0 _ (by simp [functionEntry]))
    case hnF =>
      have hk : (pf.functions.flatMap
          (fun fn => [functionEntry pf.filePath fn])).map Prod.fst =
          (pf.functions.map (functionEntry pf.filePath)).map Prod.fst := by
        rw [(List.map_eq_flatMap _ _).symm]
      rw [hk]
      exact hfn
    case hfF =>
      intro k hk
      have hk' : k ∈ (pf.functions.map (functionEntry pf.filePath)).map
          Prod.fst := by
        rw [show (pf.functions.flatMap
            (fun fn => [functionEntry pf.filePath fn])).map Prod.fst =
            (pf.functions.map (functionEntry pf.filePath)).map Prod.fst from
            by rw [(List.map_eq_flatMap _ _).symm]] at hk
        exact hk
      rw [recordContains_append, Bool.or_eq_false_iff]
      constructor
      · rw [recordContains_append, Bool.or_eq_false_iff]
        refine ⟨hfresh _ (List.mem_cons_of_mem _
          (List.mem_append.mpr (Or.inr hk'))), ?_⟩
        rw [recordContains_eq_false_iff]
        intro hmem
        simp [recordKeys] at hmem
        apply hfile
        rw [← hmem]
        exact List.mem_append.mpr (Or.inr hk')
      · rw [recordContains_eq_false_iff]
        intro hmem
        simp only [recordKeys] at hmem
        exact (List.disjoint_right.mp hdisj) hk' hmem
  case hstepC =>
    intro r0 c hn0 hf0
    exact classStep_eq_append pf.filePath c r0 hn0 hf0
  case hfC =>
    intro k hk
    rw [recordContains_append, Bool.or_eq_false_iff]
    refine ⟨hfresh _ (List.mem_cons_of_mem _
      (List.mem_append.mpr (Or.inl hk))), ?_⟩
    rw [recordContains_eq_false_iff]
    intro hmem
    simp [recordKeys] at hmem
    apply hfile
    rw [← hmem]
    exact List.mem_append.mpr (Or.inl hk)

theorem buildNodes_eq (parsedFiles : List ParsedFile)
    (hnodup : ((allEntries parsedFiles).map Prod.fst).Nodup) :
    parsedFiles.foldl (fun acc pf => addFileNodes pf acc) [] =
      allEntries parsedFiles := by
  have h := foldl_step_eq_append (fun acc pf => addFileNodes pf acc)
    entriesOfFile ?hstep parsedFiles [] hnodup ?hf
  · simpa [allEntries] using h
  case hstep =>
    intro r pf hn hf
    exact addFileNodes_eq_append pf r hn hf
  case hf =>
    intro k _
    rfl

theorem lookup_of_mem_nodup {α : Type} {l : List (String × α)}
    (hnodup : (l.map Prod.fst).Nodup) {k : String} {v : α}
    (hmem : (k, v) ∈ l) : recordLookup l k = some v := by
  induction l with
  | nil => cases hmem
  | cons hd tl ih =>
    obtain ⟨k0, v0⟩ := hd
    rw [List.map_cons, List.nodup_cons] at hnodup
    rcases List.mem_cons.mp hmem with heq | hmem'
    · injection heq with h1 h2
      subst h1; subst h2
      simp [recordLookup]
    · have hk0 : k0 ≠ k := by
        intro heq
        subst heq
        apply hnodup.1
        exact List.mem_map.mpr ⟨(k0, v), hmem', rfl⟩
      simp only [recordLookup, hk0, if_false]
      exact ih hnodup.2 hmem'

theorem entriesOfFile_no_interface {pf : ParsedFile} {k : String} {v : GNode}
    (h : (k, v) ∈ entriesOfFile pf) : v.type ≠ .interface_ := by
  unfold entriesOfFile at h
  rcases List.mem_cons.mp h with heq | h
  · injection heq with h1 h2
    subst h2
    simp
  rcases List.mem_append.mp h with h | h
  · rw [List.mem_flatMap] at h
    obtain ⟨c, _, h⟩ := h
    unfold classEntries at h
    rcases List.mem_cons.mp h with heq | h
    · injection heq with h1 h2
      subst h2
      simp
    · rw [List.mem_map] at h
      obtain ⟨m, _, heq⟩ := h
      unfold methodEntry at heq
      injection heq with h1 h2
      subst h2
      simp
  · rw [List.mem_map] at h
    obtain ⟨fn, _, heq⟩ := h
    unfold functionEntry at heq
    injection heq with h1 h2
    subst h2
    simp

theorem mem_allEntries {parsedFiles : List ParsedFile} {pf : ParsedFile}
    {entry : String × GNode} (hpf : pf ∈ parsedFiles)
    (hentry : entry ∈ entriesOfFile pf) : entry ∈ allEntries parsedFiles := by
  unfold allEntries
  exact List.mem_flatMap.mpr ⟨pf, hpf, hentry⟩

/-- C9: when the generated entity ids are pairwise distinct (the spec's
entity-id uniqueness invariant), the node pass emits, for every parsed
file, one file node, one `class` node per class carrying the class's own
line and endLine, one `method` node per method nested under its class,
and one `function` node per function, each stored under the `::`-scheme
entity id; and no node of type `interface` exists (the parsed-file fact
has no interface list, so zero interface nodes are emitted). -/
theorem c9_node_pass (fsExists : String → Bool)
    (parsedFiles : List ParsedFile)
    (commitHash projectRoot timestamp : String)
    (hnodup : ((allEntries parsedFiles).map Prod.fst).Nodup) :
    (∀ pf ∈ parsedFiles,
      recordLookup (buildGraph fsExists parsedFiles commitHash projectRoot
          timestamp).nodes (formatFileId pf.filePath) =
        some ⟨.file, none, none, none⟩ ∧
      (∀ c ∈ pf.classes,
        recordLookup (buildGraph fsExists parsedFiles commitHash projectRoot
            timestamp).nodes (formatClassId pf.filePath c.name) =
          some ⟨.class_, some pf.filePath, some c.line, some c.endLine⟩ ∧
        ∀ m ∈ c.methods,
          recordLookup (buildGraph fsExists parsedFiles commitHash projectRoot
              timestamp).nodes (formatMethodId pf.filePath c.name m.name) =
            some ⟨.method, some pf.filePath, some m.line, some m.endLine⟩) ∧
      (∀ fn ∈ pf.functions,
        recordLookup (buildGraph fsExists parsedFiles commitHash projectRoot
            timestamp).nodes (formatFunctionId pf.filePath fn.name) =
          some ⟨.function_, some pf.filePath, some fn.line, some fn.endLine⟩)) ∧
    (∀ k v, recordLookup (buildGraph fsExists parsedFiles commitHash
        projectRoot timestamp).nodes k = some v → v.type ≠ .interface_) := by
  have hnodes : (buildGraph fsExists parsedFiles commitHash projectRoot
      timestamp).nodes = allEntries parsedFiles := buildNodes_eq _ hnodup
  rw [hnodes]
  constructor
  · intro pf hpf
    refine ⟨?_, ?_, ?_⟩
    · exact lookup_of_mem_nodup hnodup
        (mem_allEntries hpf (List.mem_cons_self _ _))
    · intro c hc
      constructor
      · apply lookup_of_mem_nodup hnodup
        apply mem_allEntries hpf
        apply List.mem_cons_of_mem
        apply List.mem_append.mpr
        apply Or.inl
        exact List.mem_flatMap.mpr ⟨c, hc, List.mem_cons_self _ _⟩
      · intro m hm
        apply lookup_of_mem_nodup hnodup
        apply mem_allEntries hpf
        apply List.mem_cons_of_mem
        apply List.mem_append.mpr
        apply Or.inl
        apply List.mem_flatMap.mpr
        refine ⟨c, hc, List.mem_cons_of_mem _ ?_⟩
        exact List.mem_map.mpr ⟨m, hm, rfl⟩
    · intro fn hfn
      apply lookup_of_mem_nodup hnodup
      apply mem_allEntries hpf
      apply List.mem_cons_of_mem
      apply List.mem_append.mpr
      apply Or.inr
      exact List.mem_map.mpr ⟨fn, hfn, rfl⟩
  · intro k v hlook
    have hmem := recordLookup_mem hlook
    unfold allEntries at hmem
    rw [List.mem_flatMap] at hmem
    obtain ⟨pf, _, hmem⟩ := hmem
    exact entriesOfFile_no_interface hmem

/-- Witness for C9 at a concrete parsed file. -/
theorem c9_node_pass_witness :
    (∀ pf ∈ [exNodeFile],
      recordLookup (buildGraph (fun _ => false) [exNodeFile] "c" "/r"
          "t0").nodes (formatFileId pf.filePath) =
        some ⟨.file, none, none, none⟩ ∧
      (∀ c ∈ pf.classes,
        recordLookup (buildGraph (fun _ => false) [exNodeFile] "c" "/r"
            "t0").nodes (formatClassId pf.filePath c.name) =
          some ⟨.class_, some pf.filePath, some c.line, some c.endLine⟩ ∧
        ∀ m ∈ c.methods,
          recordLookup (buildGraph (fun _ => false) [exNodeFile] "c" "/r"
              "t0").nodes (formatMethodId pf.filePath c.name m.name) =
            some ⟨.method, some pf.filePath, some m.line, some m.endLine⟩) ∧
      (∀ fn ∈ pf.functions,
        recordLookup (buildGraph (fun _ => false) [exNodeFile] "c" "/r"
            "t0").nodes (formatFunctionId pf.filePath fn.name) =
          some ⟨.function_, some pf.filePath, some fn.line, some fn.endLine⟩)) ∧
    (∀ k v, recordLookup (buildGraph (fun _ => false) [exNodeFile] "c" "/r"
        "t0").nodes k = some v → v.type ≠ .interface_) :=
  c9_node_pass (fun _ => false) [exNodeFile] "c" "/r" "t0" (by decide)

/-! ## C3: alias specificity and template order -/

theorem perm_insertSorted {α : Type} (le : α → α → Bool) (x : α)
    (l : List α) : (insertSorted le x l).Perm (x :: l) := by
  induction l with
  | nil => rfl
  | cons y ys ih =>
    unfold insertSorted
    by_cases h : le x y = true
    · rw [if_pos h]
    · rw [if_neg h]
      exact List.Perm.trans (List.Perm.cons y ih) (List.Perm.swap x y ys)

theorem perm_sortBy {α : Type} (le : α → α → Bool) (l : List α) :
    (sortBy le l).Perm l := by
  induction l with
  | nil => rfl
  | cons x xs ih =>
    unfold sortBy
    exact (perm_insertSorted le x (sortBy le xs)).trans (List.Perm.cons x ih)

theorem pairwise_insertSorted {α : Type} (le : α → α → Bool)
    (htotal : ∀ a b, le a b = true ∨ le b a = true)
    (htrans : ∀ a b c, le a b = true → le b c = true → le a c = true)
    (x : α) (l : List α) (hl : l.Pairwise (fun a b => le a b = true)) :
    (insertSorted le x l).Pairwise (fun a b => le a b = true) := by
  induction l with
  | nil => simp [insertSorted]
  | cons y ys ih =>
    rw [List.pairwise_cons] at hl
    unfold insertSorted
    by_cases h : le x y = true
    · rw [if_pos h]
      rw [List.pairwise_cons]
      refine ⟨?_, List.pairwise_cons.mpr hl⟩
      intro z hz
      rcases List.mem_cons.mp hz with heq | hz'
      · rw [heq]; exact h
      · exact htrans x y z h (hl.1 z hz')
    · rw [if_neg h]
      rw [List.pairwise_cons]
      constructor
      · intro z hz
        have hz' := (perm_insertSorted le x ys).mem_iff.mp hz
        rcases List.mem_cons.mp hz' with heq | hz''
        · rw [heq]
          rcases htotal x y with hxy | hyx
          · exact absurd hxy h
          · exact hyx
        · exact hl.1 z hz''
      · exact ih hl.2

theorem pairwise_sortBy {α : Type} (le : α → α → Bool)
    (htotal : ∀ a b, le a b = true ∨ le b a = true)
    (htrans : ∀ a b c, le a b = true → le b c = true → le a c = true)
    (l : List α) :
    (sortBy le l).Pairwise (fun a b => le a b = true) := by
  induction l with
  | nil => exact List.Pairwise.nil
  | cons x xs ih =>
    unfold sortBy
    exact pairwise_insertSorted le htotal htrans x (sortBy le xs) ih

theorem aliasLoop_spec (importPath : String)
    (paths : List (String × List String)) (basePath : String) :
    ∀ l : List String,
      l.Pairwise (fun a b => patternSpecificity b ≤ patternSpecificity a) →
      aliasLoop importPath paths basePath l ≠ [] →
      ∃ p ∈ l, (matchPattern importPath p).isSome = true ∧
        aliasLoop importPath paths basePath l =
          ((recordLookup paths p).getD []).map
            (fun mappedPath => posixJoin [basePath, replaceFirst mappedPath "*"
              ((matchPattern importPath p).getD "")]) ∧
        (∀ q ∈ l, (matchPattern importPath q).isSome = true →
          patternSpecificity q ≤ patternSpecificity p) := by
  intro l
  induction l with
  | nil => intro _ hne; exact absurd rfl hne
  | cons pattern rest ih =>
    intro hpw hne
    rw [List.pairwise_cons] at hpw
    cases hmatch : matchPattern importPath pattern with
    | some m =>
      refine ⟨pattern, List.mem_cons_self _ _, by rw [hmatch]; rfl, ?_, ?_⟩
      · simp only [aliasLoop, hmatch]
        rfl
      · intro q hq _
        rcases List.mem_cons.mp hq with heq | hq'
        · rw [heq]
        · exact hpw.1 q hq'
    | none =>
      have hloop : aliasLoop importPath paths basePath (pattern :: rest) =
          aliasLoop importPath paths basePath rest := by
        simp only [aliasLoop, hmatch]
      rw [hloop] at hne ⊢
      obtain ⟨p, hp, hsome, heq, hmax⟩ := ih hpw.2 hne
      refine ⟨p, List.mem_cons_of_mem _ hp, hsome, heq, ?_⟩
      intro q hq hqsome
      rcases List.mem_cons.mp hq with heq' | hq'
      · rw [heq', hmatch] at hqsome
        cases hqsome
      · exact hmax q hq' hqsome

/-- C3: for every non-relative specifier and alias configuration, when
`matchPathAlias` produces candidates they come from a single matching
pattern of maximal specificity (number of non-wildcard characters), whose
replacement templates are substituted in their listed order; lower-
specificity patterns are never consulted.  Concretely, with patterns
`@api/*` and the catch-all `@/*`, `@api/users` selects the `@api/*`
mapping only; and with templates `services/*`, `shared/services/*` under
`baseUrl ./src`, resolution returns the second template's candidate when
only it exists on disk. -/
theorem c3_alias_specificity :
    (∀ (importPath projectRoot : String) (config : TsConfigPaths),
      matchPathAlias importPath config projectRoot ≠ [] →
      ∃ p ∈ config.paths.map Prod.fst,
        (matchPattern importPath p).isSome = true ∧
        matchPathAlias importPath config projectRoot =
          ((recordLookup config.paths p).getD []).map
            (fun mappedPath => posixJoin
              [(match config.baseUrl with
                | some b => posixJoin [projectRoot, b]
                | none => projectRoot),
               replaceFirst mappedPath "*"
                 ((matchPattern importPath p).getD "")]) ∧
        (∀ q ∈ config.paths.map Prod.fst,
          (matchPattern importPath q).isSome = true →
          patternSpecificity q ≤ patternSpecificity p)) ∧
    matchPathAlias "@api/users" exApiConfig "/proj" =
      ["/proj/core/api/users"] ∧
    matchPathAlias "@services/auth" exServicesConfig "/proj" =
      ["/proj/src/services/auth", "/proj/src/shared/services/auth"] ∧
    exServicesOracle "/proj/src/services/auth.ts" = false ∧
    exServicesOracle "/proj/src/shared/services/auth.ts" = true ∧
    resolveImportPath exServicesOracle "@services/auth" "src/main.ts" "/proj"
      (some exServicesConfig) = some "src/shared/services/auth.ts" := by
  refine ⟨?_, by decide, by decide, by decide, by decide, by decide⟩
  intro importPath projectRoot config hne
  unfold matchPathAlias at hne ⊢
  by_cases hrel : strStartsWith importPath "." = true
  · simp [hrel] at hne
  · rw [Bool.not_eq_true] at hrel
    simp only [hrel, Bool.false_eq_true, if_false] at hne ⊢
    by_cases hemp : config.paths.isEmpty = true
    · simp [hemp] at hne
    · rw [Bool.not_eq_true] at hemp
      simp only [hemp, Bool.false_eq_true, if_false] at hne ⊢
      have hsorted : (sortBy
          (fun a b => decide (patternSpecificity b ≤ patternSpecificity a))
          (config.paths.map Prod.fst)).Pairwise
          (fun a b => patternSpecificity b ≤ patternSpecificity a) := by
        have := pairwise_sortBy
          (fun a b : String =>
            decide (patternSpecificity b ≤ patternSpecificity a))
          (fun a b => by
            rcases Nat.le_total (patternSpecificity b) (patternSpecificity a)
              with h | h
            · exact Or.inl (by simp [h])
            · exact Or.inr (by simp [h]))
          (fun a b c hab hbc => by
            rw [decide_eq_true_eq] at hab hbc ⊢
            exact le_trans hbc hab)
          (config.paths.map Prod.fst)
        exact this.imp (fun h => by rwa [decide_eq_true_eq] at h)
      obtain ⟨p, hp, hsome, heq, hmax⟩ :=
        aliasLoop_spec importPath config.paths _ _ hsorted hne
      have hperm := perm_sortBy
        (fun a b : String =>
          decide (patternSpecificity b ≤ patternSpecificity a))
        (config.paths.map Prod.fst)
      refine ⟨p, hperm.mem_iff.mp hp, hsome, heq, ?_⟩
      intro q hq hqsome
      exact hmax q (hperm.mem_iff.mpr hq) hqsome

/-- Witness for C3 at the concrete specific-versus-catch-all scenario. -/
theorem c3_alias_specificity_witness :
    ∃ p ∈ exApiConfig.paths.map Prod.fst,
      (matchPattern "@api/users" p).isSome = true ∧
      matchPathAlias "@api/users" exApiConfig "/proj" =
        ((recordLookup exApiConfig.paths p).getD []).map
          (fun mappedPath => posixJoin
            [(match exApiConfig.baseUrl with
              | some b => posixJoin ["/proj", b]
              | none => "/proj"),
             replaceFirst mappedPath "*"
               ((matchPattern "@api/users" p).getD "")]) ∧
      (∀ q ∈ exApiConfig.paths.map Prod.fst,
        (matchPattern "@api/users" q).isSome = true →
        patternSpecificity q ≤ patternSpecificity p) :=
  c3_alias_specificity.1 "@api/users" "/proj" exApiConfig (by decide)

/-! ## Shared traversal lemmas -/

theorem reach_trans {edges : List Edge} {dir : TraversalDirection}
    {a b c : String} (hab : Reach edges dir a b) (hbc : Reach edges dir b c) :
    Reach edges dir a c := by
  induction hbc with
  | refl => exact hab
  | step _ hn ih => exact Reach.step ih hn

theorem reach_neighbor {edges : List Edge} {dir : TraversalDirection}
    {a n : String} (hn : n ∈ getNeighbors edges a dir) :
    Reach edges dir a n :=
  Reach.step (Reach.refl a) hn

theorem neighbors_sub_idList {edges : List Edge} {dir : TraversalDirection}
    {a n : String} (start : String) (hn : n ∈ getNeighbors edges a dir) :
    n ∈ idList edges start := by
  unfold idList
  apply List.mem_cons_of_mem
  unfold getNeighbors at hn
  cases dir with
  | forward =>
    rw [List.mem_map] at hn
    obtain ⟨e, he, rfl⟩ := hn
    rw [List.mem_filter] at he
    exact List.mem_flatMap.mpr ⟨e, he.1, by simp⟩
  | reverse =>
    rw [List.mem_map] at hn
    obtain ⟨e, he, rfl⟩ := hn
    rw [List.mem_filter] at he
    exact List.mem_flatMap.mpr ⟨e, he.1, by simp⟩

theorem bfsAux_nil (edges : List Edge) (dir : TraversalDirection)
    (start : String) (transitive : Bool) (fuel : Nat)
    (visited : List String) :
    bfsAux edges dir start transitive fuel visited [] = (visited, []) := by
  cases fuel with
  | zero => rfl
  | succ f => rfl

theorem qIds_append (a b : List QItem) : qIds (a ++ b) = qIds a ++ qIds b :=
  List.map_append _ _ _

theorem resIds_append (a b : List TraversalResult) :
    resIds (a ++ b) = resIds a ++ resIds b :=
  List.map_append _ _ _

theorem resIds_nil : resIds [] = [] := rfl

theorem resIds_singleton (r : TraversalResult) :
    resIds [r] = [r.entityId] := rfl

/-! ## C6: direct (non-transitive) traversal -/

theorem bfsAux_drain (edges : List Edge) (dir : TraversalDirection)
    (start : String) :
    ∀ (queue : List QItem) (fuel : Nat) (visited : List String),
      queue.length ≤ fuel →
      (∀ it ∈ queue, 0 < it.depth) →
      (∀ x, x ∈ resIds (bfsAux edges dir start false fuel visited queue).2 ↔
        (x ∈ qIds queue ∧ x ∉ visited ∧ x ≠ start)) ∧
      (resIds (bfsAux edges dir start false fuel visited queue).2).Nodup ∧
      (∀ r ∈ (bfsAux edges dir start false fuel visited queue).2,
        ∃ it ∈ queue, r.entityId = it.entityId ∧ r.depth = it.depth ∧
          r.path = it.path) := by
  intro queue
  induction queue with
  | nil =>
    intro fuel visited _ _
    rw [bfsAux_nil]
    refine ⟨?_, by simp [resIds], by simp⟩
    intro x
    simp [resIds, qIds]
  | cons cur rest ih =>
    intro fuel visited hfuel hdepth
    cases fuel with
    | zero => simp at hfuel
    | succ f =>
      have hf : rest.length ≤ f := by
        rw [List.length_cons] at hfuel
        omega
      have hdepth' : ∀ it ∈ rest, 0 < it.depth :=
        fun it hit => hdepth it (List.mem_cons_of_mem _ hit)
      by_cases hv : visited.contains cur.entityId = true
      · have hstep : bfsAux edges dir start false (f + 1) visited
            (cur :: rest) = bfsAux edges dir start false f visited rest := by
          simp only [bfsAux, hv, if_true]
        rw [hstep]
        obtain ⟨h1, h2, h3⟩ := ih f visited hf hdepth'
        refine ⟨?_, h2, ?_⟩
        · intro x
          rw [h1 x]
          have hvmem : cur.entityId ∈ visited := List.elem_iff.mp hv
          constructor
          · rintro ⟨ha, hb, hc⟩
            exact ⟨List.mem_cons_of_mem _ ha, hb, hc⟩
          · rintro ⟨ha, hb, hc⟩
            rcases List.mem_cons.mp ha with heq | ha'
            · exact absurd (heq ▸ hvmem) hb
            · exact ⟨ha', hb, hc⟩
        · intro r hr
          obtain ⟨it, hit, heq⟩ := h3 r hr
          exact ⟨it, List.mem_cons_of_mem _ hit, heq⟩
      · have hpos : 0 < cur.depth := hdepth cur (List.mem_cons_self _ _)
        have hstep : bfsAux edges dir start false (f + 1) visited
            (cur :: rest) =
            ((bfsAux edges dir start false f (cur.entityId :: visited)
                rest).1,
              (if cur.entityId = start then []
               else [⟨cur.entityId, cur.depth, cur.path⟩]) ++
              (bfsAux edges dir start false f (cur.entityId :: visited)
                rest).2) := by
          simp only [bfsAux, hv, Bool.false_eq_true, if_false]
          rw [if_pos ⟨trivial, hpos⟩]
        rw [hstep]
        obtain ⟨h1, h2, h3⟩ := ih f (cur.entityId :: visited) hf hdepth'
        refine ⟨?_, ?_, ?_⟩
        · intro x
          simp only [resIds_append, List.mem_append]
          rw [h1 x]
          by_cases hs : cur.entityId = start
          · rw [if_pos hs]
            simp only [resIds, List.map_nil, List.not_mem_nil, false_or]
            constructor
            · rintro ⟨ha, hb, hc⟩
              refine ⟨List.mem_cons_of_mem _ ha, ?_, hc⟩
              intro hx
              exact hb (List.mem_cons_of_mem _ hx)
            · rintro ⟨ha, hb, hc⟩
              rcases List.mem_cons.mp ha with heq | ha'
              · exact absurd (heq.trans hs) hc
              · refine ⟨ha', ?_, hc⟩
                intro hx
                rcases List.mem_cons.mp hx with heq | hx'
                · exact hc (heq.trans hs)
                · exact hb hx'
          · rw [if_neg hs]
            simp only [resIds, List.map_cons, List.map_nil,
              List.mem_singleton]
            constructor
            · rintro (heq | ⟨ha, hb, hc⟩)
              · subst heq
                refine ⟨List.mem_cons_self _ _, ?_, hs⟩
                intro hx
                exact hv (List.elem_iff.mpr hx)
              · refine ⟨List.mem_cons_of_mem _ ha, ?_, hc⟩
                intro hx
                exact hb (List.mem_cons_of_mem _ hx)
            · rintro ⟨ha, hb, hc⟩
              by_cases heq : x = cur.entityId
              · exact Or.inl heq
              · apply Or.inr
                rcases List.mem_cons.mp ha with heq' | ha'
                · exact absurd heq' heq
                · refine ⟨ha', ?_, hc⟩
                  intro hx
                  rcases List.mem_cons.mp hx with heq' | hx'
                  · exact heq heq'
                  · exact hb hx'
        · simp only [resIds_append]
          by_cases hs : cur.entityId = start
          · rw [if_pos hs]
            simpa [resIds] using h2
          · rw [if_neg hs]
            simp only [resIds, List.map_cons, List.map_nil,
              List.singleton_append, List.nodup_cons]
            refine ⟨?_, h2⟩
            intro hmem
            have := (h1 cur.entityId).mp hmem
            exact this.2.1 (List.mem_cons_self _ _)
        · intro r hr
          rw [List.mem_append] at hr
          rcases hr with hr | hr
          · by_cases hs : cur.entityId = start
            · rw [if_pos hs] at hr
              cases hr
            · rw [if_neg hs] at hr
              rw [List.mem_singleton] at hr
              subst hr
              exact ⟨cur, List.mem_cons_self _ _, rfl, rfl, rfl⟩
          · obtain ⟨it, hit, heq⟩ := h3 r hr
            exact ⟨it, List.mem_cons_of_mem _ hit, heq⟩

theorem getNeighbors_length_le (edges : List Edge) (a : String)
    (dir : TraversalDirection) :
    (getNeighbors edges a dir).length ≤ edges.length := by
  unfold getNeighbors
  cases dir with
  | forward =>
    rw [List.length_map]
    exact List.length_filter_le _ _
  | reverse =>
    rw [List.length_map]
    exact List.length_filter_le _ _

/-- C6: for every graph and start entity present in the node map,
non-transitive forward traversal returns exactly the set of direct
out-neighbors of the start (edge targets whose source is the start),
each exactly once regardless of parallel edges, never including the
start itself (self-loops dropped), and every result at depth 1. -/
theorem c6_direct_traversal (g : GraphData) (e : String)
    (rs : List TraversalResult)
    (h : traverseBFS g e .forward false = some rs) :
    (∀ x, x ∈ resIds rs ↔
      (x ∈ (g.edges.filter (fun ed => ed.source = e)).map Edge.target ∧
        x ≠ e)) ∧
    (resIds rs).Nodup ∧
    (∀ r ∈ rs, r.depth = 1) := by
  unfold traverseBFS traverseBFSFuel at h
  by_cases hc : recordContains g.nodes e = true
  · rw [if_pos hc] at h
    injection h with h
    subst h
    have hD : 0 < (idList g.edges e).dedup.length := by
      have : e ∈ (idList g.edges e).dedup :=
        List.mem_dedup.mpr (List.mem_cons_self _ _)
      exact List.length_pos.mpr (List.ne_nil_of_mem this)
    have hstep : bfsAux g.edges .forward e false (bfsFuel g.edges e) []
        [⟨e, 0, [e]⟩] =
        ((bfsAux g.edges .forward e false
            ((idList g.edges e).dedup.length * (g.edges.length + 1)) [e]
            (((getNeighbors g.edges e .forward).filter
              (fun n => ! ([e].contains n))).map
              (fun n => (⟨n, 1, [e] ++ [n]⟩ : QItem)))).1,
          (bfsAux g.edges .forward e false
            ((idList g.edges e).dedup.length * (g.edges.length + 1)) [e]
            (((getNeighbors g.edges e .forward).filter
              (fun n => ! ([e].contains n))).map
              (fun n => (⟨n, 1, [e] ++ [n]⟩ : QItem)))).2) := by
      show bfsAux g.edges .forward e false
        ((idList g.edges e).dedup.length * (g.edges.length + 1) + 1) []
        [⟨e, 0, [e]⟩] = _
      simp only [bfsAux]
      norm_num
    rw [hstep]
    set pushes := ((getNeighbors g.edges e .forward).filter
      (fun n => ! ([e].contains n))).map
      (fun n => (⟨n, 1, [e] ++ [n]⟩ : QItem)) with hpushes
    have hlen : pushes.length ≤
        (idList g.edges e).dedup.length * (g.edges.length + 1) := by
      rw [hpushes, List.length_map]
      have h1 : ((getNeighbors g.edges e .forward).filter
          (fun n => ! ([e].contains n))).length ≤ g.edges.length :=
        le_trans (List.length_filter_le _ _)
          (getNeighbors_length_le g.edges e .forward)
      calc ((getNeighbors g.edges e .forward).filter
            (fun n => ! ([e].contains n))).length ≤ g.edges.length := h1
        _ ≤ 1 * (g.edges.length + 1) := by omega
        _ ≤ (idList g.edges e).dedup.length * (g.edges.length + 1) :=
            Nat.mul_le_mul_right _ hD
    have hdep : ∀ it ∈ pushes, 0 < it.depth := by
      intro it hit
      rw [hpushes, List.mem_map] at hit
      obtain ⟨n, _, rfl⟩ := hit
      exact Nat.zero_lt_one
    obtain ⟨h1, h2, h3⟩ := bfsAux_drain g.edges .forward e pushes
      ((idList g.edges e).dedup.length * (g.edges.length + 1)) [e] hlen hdep
    have hq : qIds pushes = (getNeighbors g.edges e .forward).filter
        (fun n => ! ([e].contains n)) := by
      rw [hpushes]
      unfold qIds
      rw [List.map_map]
      exact List.map_id _
    refine ⟨?_, h2, ?_⟩
    · intro x
      rw [h1 x, hq]
      constructor
      · rintro ⟨ha, _, hc'⟩
        rw [List.mem_filter] at ha
        exact ⟨ha.1, hc'⟩
      · rintro ⟨ha, hne⟩
        refine ⟨List.mem_filter.mpr ⟨ha, by simp [hne]⟩, by simp [hne], hne⟩
    · intro r hr
      obtain ⟨it, hit, _, hd, _⟩ := h3 r hr
      rw [hpushes, List.mem_map] at hit
      obtain ⟨n, _, rfl⟩ := hit
      rw [hd]
  · rw [if_neg hc] at h
    cases h

/-- Witness for C6 at a concrete graph with parallel edges, a self-loop
and a dangling target. -/
theorem c6_direct_traversal_witness :
    (∀ x, x ∈ resIds [⟨"B", 1, ["A", "B"]⟩, ⟨"X", 1, ["A", "X"]⟩] ↔
      (x ∈ (exMulti.edges.filter (fun ed => ed.source = "A")).map
          Edge.target ∧ x ≠ "A")) ∧
    (resIds [⟨"B", 1, ["A", "B"]⟩, ⟨"X", 1, ["A", "X"]⟩]).Nodup ∧
    (∀ r ∈ [(⟨"B", 1, ["A", "B"]⟩ : TraversalResult),
      ⟨"X", 1, ["A", "X"]⟩], r.depth = 1) :=
  c6_direct_traversal exMulti "A" _ (by decide)

/-! ## C7: cycle-safe termination of transitive traversal -/

theorem length_filter_notContains_cons {l : List String} (hnodup : l.Nodup)
    {a : String} (ha : a ∈ l) {visited : List String} (hv : a ∉ visited) :
    (l.filter (fun x => ! ((a :: visited).contains x))).length + 1 =
      (l.filter (fun x => ! (visited.contains x))).length := by
  induction l with
  | nil => cases ha
  | cons hd tl ih =>
    rw [List.nodup_cons] at hnodup
    by_cases heq : hd = a
    · subst heq
      have h1 : (! ((hd :: visited).contains hd)) = false := by simp
      have h2 : (! (visited.contains hd)) = true := by
        simp only [Bool.not_eq_true']
        rw [← Bool.not_eq_true]
        intro hcon
        exact hv (List.elem_iff.mp hcon)
      rw [List.filter_cons, List.filter_cons, h1, h2]
      simp only [List.length_cons]
      have hcong : tl.filter (fun x => ! ((hd :: visited).contains x)) =
          tl.filter (fun x => ! (visited.contains x)) := by
        apply List.filter_congr
        intro x hx
        have hxne : x ≠ hd := fun hcon => hnodup.1 (hcon ▸ hx)
        simp [List.contains_cons, hxne]
      rw [hcong]
      simp
    · have ha' : a ∈ tl := by
        rcases List.mem_cons.mp ha with hcon | h
        · exact absurd hcon.symm heq
        · exact h
      have hsame : (! ((a :: visited).contains hd)) =
          (! (visited.contains hd)) := by
        simp [List.contains_cons, heq]
      rw [List.filter_cons, List.filter_cons, hsame]
      cases hb : (! (visited.contains hd)) with
      | true =>
        rw [if_pos rfl, if_pos rfl]
        simp only [List.length_cons]
        have := ih hnodup.2 ha'
        omega
      | false =>
        rw [if_neg (by simp), if_neg (by simp)]
        exact ih hnodup.2 ha'

theorem unvisited_cons (edges : List Edge) (start : String)
    {a : String} {visited : List String} (ha : a ∈ idList edges start)
    (hv : a ∉ visited) :
    unvisitedCount edges start (a :: visited) + 1 =
      unvisitedCount edges start visited := by
  unfold unvisitedCount
  exact length_filter_notContains_cons (List.nodup_dedup _)
    (List.mem_dedup.mpr ha) hv

theorem length_filter_le_filter {α : Type} {l : List α} {p q : α → Bool}
    (h : ∀ x ∈ l, p x = true → q x = true) :
    (l.filter p).length ≤ (l.filter q).length := by
  induction l with
  | nil => exact Nat.le_refl 0
  | cons hd tl ih =>
    have ih' := ih (fun x hx hp => h x (List.mem_cons_of_mem _ hx) hp)
    rw [List.filter_cons, List.filter_cons]
    cases hp : p hd with
    | true =>
      rw [h hd (List.mem_cons_self _ _) hp]
      simpa using Nat.succ_le_succ ih'
    | false =>
      cases hq : q hd with
      | true =>
        simp only [Bool.false_eq_true, if_false, if_pos rfl,
          List.length_cons]
        exact Nat.le_succ_of_le ih'
      | false =>
        simpa using ih'

theorem unvisited_anti (edges : List Edge) (start : String)
    {v1 v2 : List String} (hsub : ∀ x ∈ v1, x ∈ v2) :
    unvisitedCount edges start v2 ≤ unvisitedCount edges start v1 := by
  unfold unvisitedCount
  apply length_filter_le_filter
  intro x _ hp
  rw [Bool.not_eq_true'] at hp ⊢
  rw [← Bool.not_eq_true] at hp ⊢
  intro hcon
  exact hp (List.elem_iff.mpr (hsub x (List.elem_iff.mp hcon)))

theorem bfsMeasure_skip (edges : List Edge) (start : String)
    (visited : List String) (cur : QItem) (rest : List QItem) :
    bfsMeasure edges start visited rest + 1 =
      bfsMeasure edges start visited (cur :: rest) := by
  unfold bfsMeasure
  rw [List.length_cons]
  omega

theorem bfsMeasure_push (edges : List Edge) (start : String)
    {a : String} {visited : List String} (ha : a ∈ idList edges start)
    (hv : a ∉ visited) (cur : QItem) (rest pushes : List QItem)
    (hp : pushes.length ≤ edges.length) :
    bfsMeasure edges start (a :: visited) (rest ++ pushes) + 1 ≤
      bfsMeasure edges start visited (cur :: rest) := by
  have hU := unvisited_cons edges start ha hv
  unfold bfsMeasure
  rw [List.length_append, List.length_cons, ← hU, Nat.succ_mul]
  generalize unvisitedCount edges start (a :: visited) *
    (edges.length + 1) = P
  omega

theorem pushes_length_le (edges : List Edge) (dir : TraversalDirection)
    (a : String) (visited1 : List String) (depth : Nat)
    (path : List String) :
    (((getNeighbors edges a dir).filter
      (fun n => ! visited1.contains n)).map
      (fun n => (⟨n, depth, path ++ [n]⟩ : QItem))).length ≤
      edges.length := by
  rw [List.length_map]
  exact le_trans (List.length_filter_le _ _) (getNeighbors_length_le _ _ _)

theorem bfsAux_fuel_congr (edges : List Edge) (dir : TraversalDirection)
    (start : String) :
    ∀ (f1 f2 : Nat) (visited : List String) (queue : List QItem),
      (∀ it ∈ queue, it.entityId ∈ idList edges start) →
      bfsMeasure edges start visited queue ≤ f1 →
      bfsMeasure edges start visited queue ≤ f2 →
      bfsAux edges dir start true f1 visited queue =
        bfsAux edges dir start true f2 visited queue := by
  intro f1
  induction f1 with
  | zero =>
    intro f2 visited queue _ h1 _
    cases queue with
    | nil => rw [bfsAux_nil, bfsAux_nil]
    | cons cur rest =>
      exfalso
      unfold bfsMeasure at h1
      rw [List.length_cons] at h1
      omega
  | succ f1 ih =>
    intro f2 visited queue hq h1 h2
    cases queue with
    | nil => rw [bfsAux_nil, bfsAux_nil]
    | cons cur rest =>
      cases f2 with
      | zero =>
        exfalso
        unfold bfsMeasure at h2
        rw [List.length_cons] at h2
        omega
      | succ f2 =>
        have hmq : bfsMeasure edges start visited rest + 1 =
            bfsMeasure edges start visited (cur :: rest) :=
          bfsMeasure_skip edges start visited cur rest
        by_cases hv : visited.contains cur.entityId = true
        · have e1 : bfsAux edges dir start true (f1 + 1) visited
              (cur :: rest) = bfsAux edges dir start true f1 visited rest := by
            simp only [bfsAux, hv, if_true]
          have e2 : bfsAux edges dir start true (f2 + 1) visited
              (cur :: rest) = bfsAux edges dir start true f2 visited rest := by
            simp only [bfsAux, hv, if_true]
          rw [e1, e2]
          exact ih f2 visited rest
            (fun it hit => hq it (List.mem_cons_of_mem _ hit))
            (by omega) (by omega)
        · have hnv : cur.entityId ∉ visited :=
            fun hcon => hv (List.elem_iff.mpr hcon)
          have hid : cur.entityId ∈ idList edges start :=
            hq cur (List.mem_cons_self _ _)
          have hm' := bfsMeasure_push edges start hid hnv cur rest
            (((getNeighbors edges cur.entityId dir).filter
              (fun n => ! (cur.entityId :: visited).contains n)).map
              (fun n => (⟨n, cur.depth + 1, cur.path ++ [n]⟩ : QItem)))
            (pushes_length_le edges dir cur.entityId
              (cur.entityId :: visited) (cur.depth + 1) cur.path)
          have hq' : ∀ it ∈ rest ++
              (((getNeighbors edges cur.entityId dir).filter
                (fun n => ! (cur.entityId :: visited).contains n)).map
                (fun n => (⟨n, cur.depth + 1, cur.path ++ [n]⟩ : QItem))),
              it.entityId ∈ idList edges start := by
            intro it hit
            rcases List.mem_append.mp hit with hit | hit
            · exact hq it (List.mem_cons_of_mem _ hit)
            · rw [List.mem_map] at hit
              obtain ⟨n, hn, rfl⟩ := hit
              rw [List.mem_filter] at hn
              exact neighbors_sub_idList start hn.1
          have hrec := ih f2 (cur.entityId :: visited)
            (rest ++ (((getNeighbors edges cur.entityId dir).filter
              (fun n => ! (cur.entityId :: visited).contains n)).map
              (fun n => (⟨n, cur.depth + 1, cur.path ++ [n]⟩ : QItem))))
            hq' (by omega) (by omega)
          have e1 : bfsAux edges dir start true (f1 + 1) visited
              (cur :: rest) =
              ((bfsAux edges dir start true f1 (cur.entityId :: visited)
                (rest ++ (((getNeighbors edges cur.entityId dir).filter
                  (fun n => ! (cur.entityId :: visited).contains n)).map
                  (fun n => (⟨n, cur.depth + 1, cur.path ++ [n]⟩ :
                    QItem))))).1,
                (if cur.entityId = start then []
                 else [⟨cur.entityId, cur.depth, cur.path⟩]) ++
                (bfsAux edges dir start true f1 (cur.entityId :: visited)
                  (rest ++ (((getNeighbors edges cur.entityId dir).filter
                    (fun n => ! (cur.entityId :: visited).contains n)).map
                    (fun n => (⟨n, cur.depth + 1, cur.path ++ [n]⟩ :
                      QItem))))).2) := by
            simp only [bfsAux, hv, Bool.false_eq_true, if_false]
            rw [if_neg (by simp)]
          have e2 : bfsAux edges dir start true (f2 + 1) visited
              (cur :: rest) =
              ((bfsAux edges dir start true f2 (cur.entityId :: visited)
                (rest ++ (((getNeighbors edges cur.entityId dir).filter
                  (fun n => ! (cur.entityId :: visited).contains n)).map
                  (fun n => (⟨n, cur.depth + 1, cur.path ++ [n]⟩ :
                    QItem))))).1,
                (if cur.entityId = start then []
                 else [⟨cur.entityId, cur.depth, cur.path⟩]) ++
                (bfsAux edges dir start true f2 (cur.entityId :: visited)
                  (rest ++ (((getNeighbors edges cur.entityId dir).filter
                    (fun n => ! (cur.entityId :: visited).contains n)).map
                    (fun n => (⟨n, cur.depth + 1, cur.path ++ [n]⟩ :
                      QItem))))).2) := by
            simp only [bfsAux, hv, Bool.false_eq_true, if_false]
            rw [if_neg (by simp)]
          rw [e1, e2, hrec]

/-! ## The BFS invariant for transitive traversal -/

theorem bfsAux_master (edges : List Edge) (dir : TraversalDirection)
    (start : String) :
    ∀ (fuel : Nat) (visited : List String) (queue : List QItem),
      bfsMeasure edges start visited queue ≤ fuel →
      (∀ it ∈ queue, it.entityId ∈ idList edges start) →
      (∀ a ∈ visited, ∀ n ∈ getNeighbors edges a dir,
        n ∈ visited ∨ n ∈ qIds queue) →
      BfsOut edges dir start visited queue
        (bfsAux edges dir start true fuel visited queue) := by
  intro fuel
  induction fuel with
  | zero =>
    intro visited queue hm hq hcl
    cases queue with
    | nil =>
      rw [bfsAux_nil]
      refine ⟨fun x hx => hx, fun x hx => Or.inl hx, ?_, by simp, ?_, by
        simp [resIds]⟩
      · intro a ha n hn
        rcases hcl a ha n hn with h | h
        · exact h
        · simp [qIds] at h
      · intro x
        constructor
        · intro hx
          simp [resIds] at hx
        · rintro ⟨h1, h2, _⟩
          exact absurd h1 h2
    | cons cur rest =>
      exfalso
      unfold bfsMeasure at hm
      rw [List.length_cons] at hm
      omega
  | succ fuel ih =>
    intro visited queue hm hq hcl
    cases queue with
    | nil =>
      rw [bfsAux_nil]
      refine ⟨fun x hx => hx, fun x hx => Or.inl hx, ?_, by simp, ?_, by
        simp [resIds]⟩
      · intro a ha n hn
        rcases hcl a ha n hn with h | h
        · exact h
        · simp [qIds] at h
      · intro x
        constructor
        · intro hx
          simp [resIds] at hx
        · rintro ⟨h1, h2, _⟩
          exact absurd h1 h2
    | cons cur rest =>
      by_cases hv : visited.contains cur.entityId = true
      · have hvm : cur.entityId ∈ visited := List.elem_iff.mp hv
        have e1 : bfsAux edges dir start true (fuel + 1) visited
            (cur :: rest) = bfsAux edges dir start true fuel visited rest := by
          simp only [bfsAux, hv, if_true]
        rw [e1]
        have hm' : bfsMeasure edges start visited rest ≤ fuel := by
          have := bfsMeasure_skip edges start visited cur rest
          omega
        have hcl' : ∀ a ∈ visited, ∀ n ∈ getNeighbors edges a dir,
            n ∈ visited ∨ n ∈ qIds rest := by
          intro a ha n hn
          rcases hcl a ha n hn with h | h
          · exact Or.inl h
          · unfold qIds at h
            rw [List.map_cons, List.mem_cons] at h
            rcases h with heq | h
            · exact Or.inl (heq ▸ hvm)
            · exact Or.inr h
        obtain ⟨o1, o2, o3, o4, o5, o6⟩ := ih visited rest hm'
          (fun it hit => hq it (List.mem_cons_of_mem _ hit)) hcl'
        refine ⟨o1, ?_, o3, ?_, o5, o6⟩
        · intro x hx
          rcases o2 x hx with h | ⟨it, hit, hr⟩
          · exact Or.inl h
          · exact Or.inr ⟨it, List.mem_cons_of_mem _ hit, hr⟩
        · intro it hit
          rcases List.mem_cons.mp hit with heq | hit'
          · exact heq ▸ o1 _ hvm
          · exact o4 it hit'
      · have hnv : cur.entityId ∉ visited :=
          fun hcon => hv (List.elem_iff.mpr hcon)
        have hid : cur.entityId ∈ idList edges start :=
          hq cur (List.mem_cons_self _ _)
        have e1 : bfsAux edges dir start true (fuel + 1) visited
            (cur :: rest) =
            ((bfsAux edges dir start true fuel (cur.entityId :: visited)
              (rest ++ (((getNeighbors edges cur.entityId dir).filter
                (fun n => ! (cur.entityId :: visited).contains n)).map
                (fun n => (⟨n, cur.depth + 1, cur.path ++ [n]⟩ :
                  QItem))))).1,
              (if cur.entityId = start then []
               else [⟨cur.entityId, cur.depth, cur.path⟩]) ++
              (bfsAux edges dir start true fuel (cur.entityId :: visited)
                (rest ++ (((getNeighbors edges cur.entityId dir).filter
                  (fun n => ! (cur.entityId :: visited).contains n)).map
                  (fun n => (⟨n, cur.depth + 1, cur.path ++ [n]⟩ :
                    QItem))))).2) := by
          simp only [bfsAux, hv, Bool.false_eq_true, if_false]
          rw [if_neg (by simp)]
        rw [e1]
        set pushes := (((getNeighbors edges cur.entityId dir).filter
          (fun n => ! (cur.entityId :: visited).contains n)).map
          (fun n => (⟨n, cur.depth + 1, cur.path ++ [n]⟩ : QItem)))
          with hpushes
        have hplen : pushes.length ≤ edges.length := by
          rw [hpushes]
          exact pushes_length_le edges dir cur.entityId
            (cur.entityId :: visited) (cur.depth + 1) cur.path
        have hm' : bfsMeasure edges start (cur.entityId :: visited)
            (rest ++ pushes) ≤ fuel := by
          have := bfsMeasure_push edges start hid hnv cur rest pushes hplen
          omega
        have hq' : ∀ it ∈ rest ++ pushes,
            it.entityId ∈ idList edges start := by
          intro it hit
          rcases List.mem_append.mp hit with hit | hit
          · exact hq it (List.mem_cons_of_mem _ hit)
          · rw [hpushes, List.mem_map] at hit
            obtain ⟨n, hn, rfl⟩ := hit
            rw [List.mem_filter] at hn
            exact neighbors_sub_idList start hn.1
        have hqp : qIds pushes = (getNeighbors edges cur.entityId dir).filter
            (fun n => ! (cur.entityId :: visited).contains n) := by
          rw [hpushes]
          unfold qIds
          rw [List.map_map]
          exact List.map_id _
        have hcl' : ∀ a ∈ cur.entityId :: visited,
            ∀ n ∈ getNeighbors edges a dir,
            n ∈ cur.entityId :: visited ∨ n ∈ qIds (rest ++ pushes) := by
          intro a ha n hn
          rcases List.mem_cons.mp ha with heq | ha'
          · subst heq
            by_cases hnv1 : (cur.entityId :: visited).contains n = true
            · exact Or.inl (List.elem_iff.mp hnv1)
            · apply Or.inr
              rw [qIds_append, List.mem_append]
              apply Or.inr
              rw [hqp, List.mem_filter]
              refine ⟨hn, ?_⟩
              rw [Bool.not_eq_true] at hnv1
              simp at hnv1 ⊢
              exact hnv1
          · rcases hcl a ha' n hn with h | h
            · exact Or.inl (List.mem_cons_of_mem _ h)
            · unfold qIds at h
              rw [List.map_cons, List.mem_cons] at h
              rcases h with heq | h
              · exact Or.inl (heq ▸ List.mem_cons_self _ _)
              · apply Or.inr
                rw [qIds_append, List.mem_append]
                exact Or.inl h
        obtain ⟨o1, o2, o3, o4, o5, o6⟩ := ih (cur.entityId :: visited)
          (rest ++ pushes) hm' hq' hcl'
        have hsub1 : ∀ x ∈ visited, x ∈ cur.entityId :: visited :=
          fun x hx => List.mem_cons_of_mem _ hx
        refine ⟨?_, ?_, o3, ?_, ?_, ?_⟩
        · intro x hx
          exact o1 x (hsub1 x hx)
        · intro x hx
          rcases o2 x hx with h | ⟨it, hit, hr⟩
          · rcases List.mem_cons.mp h with heq | h'
            · exact Or.inr ⟨cur, List.mem_cons_self _ _, heq ▸ Reach.refl _⟩
            · exact Or.inl h'
          · rcases List.mem_append.mp hit with hit' | hit'
            · exact Or.inr ⟨it, List.mem_cons_of_mem _ hit', hr⟩
            · rw [hpushes, List.mem_map] at hit'
              obtain ⟨n, hn, heq⟩ := hit'
              rw [List.mem_filter] at hn
              have hre : Reach edges dir cur.entityId x := by
                apply reach_trans (reach_neighbor hn.1)
                rw [← heq] at hr
                exact hr
              exact Or.inr ⟨cur, List.mem_cons_self _ _, hre⟩
        · intro it hit
          rcases List.mem_cons.mp hit with heq | hit'
          · exact heq ▸ o1 _ (List.mem_cons_self _ _)
          · exact o4 it (List.mem_append.mpr (Or.inl hit'))
        · intro x
          rw [resIds_append, List.mem_append]
          by_cases hs : cur.entityId = start
          · rw [if_pos hs]
            rw [resIds_nil]
            simp only [List.not_mem_nil, false_or]
            constructor
            · intro hmem
              obtain ⟨ha, hb, hc⟩ := (o5 x).mp hmem
              exact ⟨ha, fun hx => hb (List.mem_cons_of_mem _ hx), hc⟩
            · rintro ⟨ha, hb, hc⟩
              apply (o5 x).mpr
              refine ⟨ha, ?_, hc⟩
              intro hx
              rcases List.mem_cons.mp hx with heq | hx'
              · exact hc (heq.trans hs)
              · exact hb hx'
          · rw [if_neg hs]
            rw [resIds_singleton]
            simp only [List.mem_singleton]
            constructor
            · rintro (heq | hmem)
              · rw [heq]
                exact ⟨o1 _ (List.mem_cons_self _ _), hnv, hs⟩
              · obtain ⟨ha, hb, hc⟩ := (o5 x).mp hmem
                exact ⟨ha, fun hx => hb (List.mem_cons_of_mem _ hx), hc⟩
            · rintro ⟨ha, hb, hc⟩
              by_cases heq : x = cur.entityId
              · exact Or.inl heq
              · apply Or.inr
                apply (o5 x).mpr
                refine ⟨ha, ?_, hc⟩
                intro hx
                rcases List.mem_cons.mp hx with heq' | hx'
                · exact heq heq'
                · exact hb hx'
        · rw [resIds_append]
          by_cases hs : cur.entityId = start
          · rw [if_pos hs]
            rw [resIds_nil]
            simpa using o6
          · rw [if_neg hs]
            rw [resIds_singleton]
            simp only [List.singleton_append, List.nodup_cons]
            refine ⟨?_, o6⟩
            intro hmem
            have := (o5 cur.entityId).mp hmem
            exact this.2.1 (List.mem_cons_self _ _)

theorem unvisited_nil (edges : List Edge) (start : String) :
    unvisitedCount edges start [] = (idList edges start).dedup.length := by
  unfold unvisitedCount
  simp

theorem bfsMeasure_init (edges : List Edge) (start : String) :
    bfsMeasure edges start [] [⟨start, 0, [start]⟩] =
      bfsFuel edges start := by
  unfold bfsMeasure bfsFuel
  rw [unvisited_nil]
  simp

theorem bfs_run (edges : List Edge) (dir : TraversalDirection)
    (start : String) :
    BfsOut edges dir start [] [⟨start, 0, [start]⟩]
      (bfsAux edges dir start true (bfsFuel edges start) []
        [⟨start, 0, [start]⟩]) := by
  apply bfsAux_master
  · exact le_of_eq (bfsMeasure_init edges start)
  · intro it hit
    rw [List.mem_singleton] at hit
    subst hit
    exact List.mem_cons_self _ _
  · intro a ha
    cases ha

theorem bfs_visited_iff (edges : List Edge) (dir : TraversalDirection)
    (start : String) (x : String) :
    x ∈ (bfsAux edges dir start true (bfsFuel edges start) []
      [⟨start, 0, [start]⟩]).1 ↔ Reach edges dir start x := by
  obtain ⟨o1, o2, o3, o4, o5, o6⟩ := bfs_run edges dir start
  constructor
  · intro hx
    rcases o2 x hx with h | ⟨it, hit, hr⟩
    · cases h
    · rw [List.mem_singleton] at hit
      subst hit
      exact hr
  · intro hr
    induction hr with
    | refl => exact o4 _ (List.mem_singleton.mpr rfl)
    | step hab hn ih => exact o3 _ ih _ hn

theorem bfs_ids_iff (edges : List Edge) (dir : TraversalDirection)
    (start : String) (x : String) :
    x ∈ resIds (bfsAux edges dir start true (bfsFuel edges start) []
      [⟨start, 0, [start]⟩]).2 ↔
      (Reach edges dir start x ∧ x ≠ start) := by
  obtain ⟨o1, o2, o3, o4, o5, o6⟩ := bfs_run edges dir start
  rw [o5 x, ← bfs_visited_iff edges dir start x]
  constructor
  · rintro ⟨ha, _, hc⟩
    exact ⟨ha, hc⟩
  · rintro ⟨ha, hc⟩
    exact ⟨ha, fun h => (List.not_mem_nil x h).elim, hc⟩

/-- C7: transitive traversal terminates on every finite graph, cycles and
self-loops included — running the BFS loop with any fuel beyond the
visited-set bound returns the same value, the queue having been
exhausted — and it emits at most one result per entity; on the cycle
A→B→C→A, forward transitive traversal from A yields exactly B then C,
with no duplicates. -/
theorem c7_cycle_safe_termination :
    (∀ (g : GraphData) (s : String) (dir : TraversalDirection)
      (extra : Nat),
      traverseBFSFuel g s dir true (bfsFuel g.edges s + extra) =
        traverseBFS g s dir true) ∧
    (∀ (g : GraphData) (s : String) (dir : TraversalDirection)
      (rs : List TraversalResult),
      traverseBFS g s dir true = some rs → (resIds rs).Nodup) ∧
    (traverseBFS exCycle "A" .forward true).map resIds =
      some ["B", "C"] := by
  refine ⟨?_, ?_, by decide⟩
  · intro g s dir extra
    unfold traverseBFS traverseBFSFuel
    by_cases hc : recordContains g.nodes s = true
    · rw [if_pos hc, if_pos hc]
      have := bfsAux_fuel_congr g.edges dir s (bfsFuel g.edges s + extra)
        (bfsFuel g.edges s) [] [⟨s, 0, [s]⟩]
        (by
          intro it hit
          rw [List.mem_singleton] at hit
          subst hit
          exact List.mem_cons_self _ _)
        (by rw [bfsMeasure_init]; omega)
        (le_of_eq (bfsMeasure_init g.edges s))
      rw [this]
    · rw [if_neg hc, if_neg hc]
  · intro g s dir rs h
    unfold traverseBFS traverseBFSFuel at h
    by_cases hc : recordContains g.nodes s = true
    · rw [if_pos hc] at h
      injection h with h
      subst h
      exact (bfs_run g.edges dir s).2.2.2.2.2
    · rw [if_neg hc] at h
      cases h

/-- Witness for C7's no-duplicates guarantee at the cyclic graph. -/
theorem c7_cycle_safe_termination_witness :
    (resIds [⟨"B", 1, ["A", "B"]⟩, ⟨"C", 2, ["A", "B", "C"]⟩]).Nodup :=
  c7_cycle_safe_termination.2.1 exCycle "A" .forward _ (by decide)

/-! ## The DFS invariant for transitive traversal -/

theorem dfs_fold_spec (edges : List Edge) (dir : TraversalDirection)
    (start : String) (fuel : Nat) (depth : Nat) (path : List String)
    (IH : ∀ (visited : List String) (entity : String) (d : Nat)
      (p : List String),
      entity ∈ idList edges start →
      unvisitedCount edges start visited + 1 ≤ fuel →
      DfsOut edges dir start visited entity
        (dfsAux edges dir start true fuel visited entity d p)) :
    ∀ (ns : List String) (acc : List String × List TraversalResult)
      (visited0 : List String)
      (res : List String × List TraversalResult),
      res = ns.foldl
        (fun acc n =>
          if acc.1.contains n then acc
          else
            let out := dfsAux edges dir start true fuel acc.1 n
              (depth + 1) (path ++ [n])
            (out.1, acc.2 ++ out.2)) acc →
      (∀ n ∈ ns, n ∈ idList edges start) →
      unvisitedCount edges start acc.1 + 1 ≤ fuel →
      (∀ x ∈ visited0, x ∈ acc.1) →
      (∀ x, x ∈ resIds acc.2 ↔ (x ∈ acc.1 ∧ x ∉ visited0 ∧ x ≠ start)) →
      (resIds acc.2).Nodup →
      (∀ x ∈ acc.1, x ∈ res.1) ∧
      (∀ x ∈ res.1, x ∈ acc.1 ∨ ∃ n ∈ ns, Reach edges dir n x) ∧
      (∀ a ∈ res.1, a ∉ acc.1 → ∀ m ∈ getNeighbors edges a dir,
        m ∈ res.1) ∧
      (∀ n ∈ ns, n ∈ res.1) ∧
      (∀ x, x ∈ resIds res.2 ↔ (x ∈ res.1 ∧ x ∉ visited0 ∧ x ≠ start)) ∧
      (resIds res.2).Nodup := by
  intro ns
  induction ns with
  | nil =>
    intro acc visited0 res hres _ _ _ hacc5 hnodup
    rw [List.foldl_nil] at hres
    subst hres
    refine ⟨fun x hx => hx, fun x hx => Or.inl hx, ?_, by simp, hacc5,
      hnodup⟩
    intro a ha hna
    exact absurd ha hna
  | cons n ns' ih =>
    intro acc visited0 res hres hns hfuel hsub hacc5 hnodup
    rw [List.foldl_cons] at hres
    by_cases hn : acc.1.contains n = true
    · rw [if_pos hn] at hres
      obtain ⟨f1, f2, f3, f4, f5, f6⟩ := ih acc visited0 res hres
        (fun m hm => hns m (List.mem_cons_of_mem _ hm)) hfuel hsub hacc5
        hnodup
      refine ⟨f1, ?_, f3, ?_, f5, f6⟩
      · intro x hx
        rcases f2 x hx with h | ⟨m, hm, hr⟩
        · exact Or.inl h
        · exact Or.inr ⟨m, List.mem_cons_of_mem _ hm, hr⟩
      · intro m hm
        rcases List.mem_cons.mp hm with heq | hm'
        · exact heq ▸ f1 _ (List.elem_iff.mp hn)
        · exact f4 m hm'
    · rw [if_neg hn] at hres
      simp only at hres
      obtain ⟨i1, i2, i3, i4, i5, i6⟩ := IH acc.1 n (depth + 1) (path ++ [n])
        (hns n (List.mem_cons_self _ _)) hfuel
      have hfuel' : unvisitedCount edges start
          (dfsAux edges dir start true fuel acc.1 n (depth + 1)
            (path ++ [n])).1 + 1 ≤ fuel := by
        have := unvisited_anti edges start i1
        omega
      have hsub' : ∀ x ∈ visited0,
          x ∈ (dfsAux edges dir start true fuel acc.1 n (depth + 1)
            (path ++ [n])).1 :=
        fun x hx => i1 x (hsub x hx)
      have hacc5' : ∀ x, x ∈ resIds (acc.2 ++
          (dfsAux edges dir start true fuel acc.1 n (depth + 1)
            (path ++ [n])).2) ↔
          (x ∈ (dfsAux edges dir start true fuel acc.1 n (depth + 1)
            (path ++ [n])).1 ∧ x ∉ visited0 ∧ x ≠ start) := by
        intro x
        rw [resIds_append, List.mem_append]
        constructor
        · rintro (hx | hx)
          · obtain ⟨a, b, c⟩ := (hacc5 x).mp hx
            exact ⟨i1 _ a, b, c⟩
          · obtain ⟨a, b, c⟩ := (i5 x).mp hx
            exact ⟨a, fun hmem => b (hsub _ hmem), c⟩
        · rintro ⟨hx1, hx2, hx3⟩
          by_cases hxa : x ∈ acc.1
          · exact Or.inl ((hacc5 x).mpr ⟨hxa, hx2, hx3⟩)
          · exact Or.inr ((i5 x).mpr ⟨hx1, hxa, hx3⟩)
      have hnodup' : (resIds (acc.2 ++
          (dfsAux edges dir start true fuel acc.1 n (depth + 1)
            (path ++ [n])).2)).Nodup := by
        rw [resIds_append]
        rw [List.nodup_append]
        refine ⟨hnodup, i6, ?_⟩
        intro x hx hx'
        have h1 := ((hacc5 x).mp hx).1
        have h2 := ((i5 x).mp hx').2.1
        exact h2 h1
      obtain ⟨f1, f2, f3, f4, f5, f6⟩ := ih _ visited0 res hres
        (fun m hm => hns m (List.mem_cons_of_mem _ hm)) hfuel' hsub' hacc5'
        hnodup'
      refine ⟨?_, ?_, ?_, ?_, f5, f6⟩
      · intro x hx
        exact f1 x (i1 x hx)
      · intro x hx
        rcases f2 x hx with h | ⟨m, hm, hr⟩
        · rcases i2 x h with h' | hr'
          · exact Or.inl h'
          · exact Or.inr ⟨n, List.mem_cons_self _ _, hr'⟩
        · exact Or.inr ⟨m, List.mem_cons_of_mem _ hm, hr⟩
      · intro a ha ha2 m hm
        by_cases hao : a ∈ (dfsAux edges dir start true fuel acc.1 n
            (depth + 1) (path ++ [n])).1
        · exact f1 m (i3 a hao ha2 m hm)
        · exact f3 a ha hao m hm
      · intro m hm
        rcases List.mem_cons.mp hm with heq | hm'
        · exact heq ▸ f1 _ i4
        · exact f4 m hm'

theorem dfsAux_master (edges : List Edge) (dir : TraversalDirection)
    (start : String) :
    ∀ (fuel : Nat) (visited : List String) (entity : String) (depth : Nat)
      (path : List String),
      entity ∈ idList edges start →
      unvisitedCount edges start visited + 1 ≤ fuel →
      DfsOut edges dir start visited entity
        (dfsAux edges dir start true fuel visited entity depth path) := by
  intro fuel
  induction fuel with
  | zero =>
    intro visited entity depth path _ hf
    omega
  | succ fuel ih =>
    intro visited entity depth path hid hf
    by_cases hv : visited.contains entity = true
    · have e1 : dfsAux edges dir start true (fuel + 1) visited entity depth
          path = (visited, []) := by
        simp only [dfsAux, hv, if_true]
      rw [e1]
      refine ⟨fun x hx => hx, fun x hx => Or.inl hx, ?_,
        List.elem_iff.mp hv, ?_, by simp [resIds]⟩
      · intro a ha hna
        exact absurd ha hna
      · intro x
        constructor
        · intro hx
          simp [resIds] at hx
        · rintro ⟨h1, h2, _⟩
          exact absurd h1 h2
    · have hnv : entity ∉ visited := fun h => hv (List.elem_iff.mpr h)
      have e1 : dfsAux edges dir start true (fuel + 1) visited entity depth
          path =
          (getNeighbors edges entity dir).foldl
            (fun acc n =>
              if acc.1.contains n then acc
              else
                let out := dfsAux edges dir start true fuel acc.1 n
                  (depth + 1) (path ++ [n])
                (out.1, acc.2 ++ out.2))
            (entity :: visited,
              if entity = start then []
              else [⟨entity, depth, path⟩]) := by
        simp only [dfsAux, hv, Bool.false_eq_true, if_false]
        rw [if_neg (by simp)]
      have hfuel1 : unvisitedCount edges start (entity :: visited) + 1 ≤
          fuel := by
        have := unvisited_cons edges start hid hnv
        omega
      have hacc5 : ∀ x, x ∈ resIds (if entity = start then []
          else [(⟨entity, depth, path⟩ : TraversalResult)]) ↔
          (x ∈ entity :: visited ∧ x ∉ visited ∧ x ≠ start) := by
        intro x
        by_cases hs : entity = start
        · rw [if_pos hs, resIds_nil]
          constructor
          · intro hx
            cases hx
          · rintro ⟨h1, h2, h3⟩
            rcases List.mem_cons.mp h1 with heq | h1'
            · exact absurd (heq.trans hs) h3
            · exact absurd h1' h2
        · rw [if_neg hs, resIds_singleton]
          constructor
          · intro hx
            rw [List.mem_singleton] at hx
            subst hx
            exact ⟨List.mem_cons_self _ _, hnv, hs⟩
          · rintro ⟨h1, h2, _⟩
            rcases List.mem_cons.mp h1 with heq | h1'
            · exact List.mem_singleton.mpr heq
            · exact absurd h1' h2
      have hnodup : (resIds (if entity = start then []
          else [(⟨entity, depth, path⟩ : TraversalResult)])).Nodup := by
        by_cases hs : entity = start
        · rw [if_pos hs, resIds_nil]
          exact List.nodup_nil
        · rw [if_neg hs, resIds_singleton]
          exact List.nodup_singleton _
      obtain ⟨f1, f2, f3, f4, f5, f6⟩ := dfs_fold_spec edges dir start fuel
        depth path ih (getNeighbors edges entity dir)
        (entity :: visited,
          if entity = start then [] else [⟨entity, depth, path⟩])
        visited (dfsAux edges dir start true (fuel + 1) visited entity
          depth path) e1 (fun n hn => neighbors_sub_idList start hn)
        hfuel1 (fun x hx => List.mem_cons_of_mem _ hx) hacc5 hnodup
      refine ⟨?_, ?_, ?_, ?_, f5, f6⟩
      · intro x hx
        exact f1 x (List.mem_cons_of_mem _ hx)
      · intro x hx
        rcases f2 x hx with h | ⟨n, hn, hr⟩
        · rcases List.mem_cons.mp h with heq | h'
          · exact Or.inr (heq ▸ Reach.refl _)
          · exact Or.inl h'
        · exact Or.inr (reach_trans (reach_neighbor hn) hr)
      · intro a ha ha2 m hm
        by_cases hav : a ∈ entity :: visited
        · have haeq : a = entity := by
            rcases List.mem_cons.mp hav with heq | h'
            · exact heq
            · exact absurd h' ha2
          subst haeq
          exact f4 m hm
        · exact f3 a ha hav m hm
      · exact f1 entity (List.mem_cons_self _ _)

theorem dfs_run (edges : List Edge) (dir : TraversalDirection)
    (start : String) :
    DfsOut edges dir start [] start
      (dfsAux edges dir start true (dfsFuel edges start) [] start 0
        [start]) := by
  apply dfsAux_master
  · exact List.mem_cons_self _ _
  · rw [unvisited_nil]
    exact Nat.le_refl _

theorem dfs_visited_iff (edges : List Edge) (dir : TraversalDirection)
    (start : String) (x : String) :
    x ∈ (dfsAux edges dir start true (dfsFuel edges start) [] start 0
      [start]).1 ↔ Reach edges dir start x := by
  obtain ⟨o1, o2, o3, o4, o5, o6⟩ := dfs_run edges dir start
  constructor
  · intro hx
    rcases o2 x hx with h | hr
    · cases h
    · exact hr
  · intro hr
    induction hr with
    | refl => exact o4
    | step hab hn ih =>
      exact o3 _ ih (List.not_mem_nil _) _ hn

theorem dfs_ids_iff (edges : List Edge) (dir : TraversalDirection)
    (start : String) (x : String) :
    x ∈ resIds (dfsAux edges dir start true (dfsFuel edges start) [] start 0
      [start]).2 ↔ (Reach edges dir start x ∧ x ≠ start) := by
  obtain ⟨o1, o2, o3, o4, o5, o6⟩ := dfs_run edges dir start
  rw [o5 x, ← dfs_visited_iff edges dir start x]
  constructor
  · rintro ⟨ha, _, hc⟩
    exact ⟨ha, hc⟩
  · rintro ⟨ha, hc⟩
    exact ⟨ha, fun h => (List.not_mem_nil x h).elim, hc⟩

/-- C8: for every graph, every start entity and both directions, the set
of entity ids returned by transitive `traverseBFS` equals the set
returned by transitive `traverseDFS` — both are the set of entities
reachable from the start, excluding the start itself; both fail alike on
a missing start entity.  Only per-result depth/path values may differ. -/
theorem c8_bfs_dfs_equivalence (graph : GraphData) (startEntityId : String)
    (direction : TraversalDirection) :
    Option.map (fun rs => (resIds rs).toFinset)
      (traverseBFS graph startEntityId direction true) =
    Option.map (fun rs => (resIds rs).toFinset)
      (traverseDFS graph startEntityId direction true) := by
  unfold traverseBFS traverseBFSFuel traverseDFS
  by_cases hc : recordContains graph.nodes startEntityId = true
  · rw [if_pos hc, if_pos hc]
    simp only [Option.map_some']
    congr 1
    apply Finset.ext
    intro x
    simp only [List.mem_toFinset]
    rw [bfs_ids_iff, dfs_ids_iff]
  · rw [if_neg hc, if_neg hc]
